import Mathlib

/-!
Shallow embedding of the YoutubeSync reconciliation program (src/main.py).

Conventions used throughout:
* Python `None`-able fields are modelled as `Option _`.
* Python dicts are modelled as association lists in insertion order
  (`alistSet` replaces the first matching key in place, otherwise appends,
  exactly like `d[k] = v`).
* Python string truthiness (`if f.id:`) is `truthy`.
* `sorted(..., key=f)` is a stable sort; it is modelled by `stableSortBy lt`
  with `lt a b` meaning "key of a is strictly below key of b", which places
  an element before the first existing element whose key is not strictly
  smaller, preserving the relative order of equal keys (Python sorts are
  stable).
* Item indices are `Option Int` (`track_num.count` may be absent).  Python
  raises `TypeError` when `sorted` compares `None` with an int; the sort key
  is modelled with `Option.getD 0`, and the theorems that depend on the sort
  carry the hypothesis that every compared index is present, which is the
  only situation in which the Python code completes a run.
-/

/-- The per-item dirty-tracking entity from `class Video` in src/main.py.
Fields mirror `Video.__init__`; `u_` fields are the `_update_` dirty flags
and `initial_save` is `_initial_save`. -/
structure Video where
  title : Option String
  id : Option String
  channel : Option String
  thumbnail : Option String
  index : Option Int
  filepath : Option String
  playlist : Option String
  album_artist : Option String
  format : Nat
  u_title : Bool
  u_channel : Bool
  u_thumbnail : Bool
  u_index : Bool
  u_album_artist : Bool
  initial_save : Bool
deriving DecidableEq

/-- The freshly-constructed `Video(format=0)`: everything `None`, flags clear. -/
def Video.init : Video :=
  { title := none, id := none, channel := none, thumbnail := none,
    index := none, filepath := none, playlist := none, album_artist := none,
    format := 0, u_title := false, u_channel := false, u_thumbnail := false,
    u_index := false, u_album_artist := false, initial_save := false }

/-- `Video.set_title`: store on inequality and set the dirty flag. -/
def Video.set_title (v : Video) (title : Option String) : Video :=
  if title ≠ v.title then { v with title := title, u_title := true } else v

/-- `Video.set_channel`. -/
def Video.set_channel (v : Video) (channel : Option String) : Video :=
  if channel ≠ v.channel then { v with channel := channel, u_channel := true } else v

/-- `Video.set_thumbnail`. -/
def Video.set_thumbnail (v : Video) (thumbnail : Option String) : Video :=
  if thumbnail ≠ v.thumbnail then { v with thumbnail := thumbnail, u_thumbnail := true } else v

/-- `Video.set_index`. -/
def Video.set_index (v : Video) (index : Option Int) : Video :=
  if index ≠ v.index then { v with index := index, u_index := true } else v

/-- `Video.set_album_artist`. -/
def Video.set_album_artist (v : Video) (artist : Option String) : Video :=
  if artist ≠ v.album_artist then { v with album_artist := artist, u_album_artist := true } else v

/-- `Video.update`: chain the five field setters with the incoming descriptor. -/
def Video.update (v : Video) (incoming : Video) : Video :=
  ((((v.set_title incoming.title).set_channel incoming.channel).set_thumbnail
      incoming.thumbnail).set_index incoming.index).set_album_artist incoming.album_artist

/-- The guard of `Video.save_metadata`: true exactly when a write-back (tag
rewrite) action is performed for the item. -/
def Video.doesWriteBack (v : Video) : Bool :=
  v.initial_save || v.u_title || v.u_channel || v.u_thumbnail || v.u_index || v.u_album_artist

/-- Python string truthiness for an optional string (`if f.id:`). -/
def truthy : Option String → Bool
  | none => false
  | some s => s != ""

/-- Python `f"{x}"` for a possibly-None string (None prints as "None"). -/
def pyStr : Option String → String
  | none => "None"
  | some s => s

/-- Characters of `filename.split(".")[-1]`: everything after the last dot
(the whole name when there is no dot). -/
def extChars : List Char → List Char → List Char
  | [], acc => acc.reverse
  | c :: rest, acc => if c = '.' then extChars rest [] else extChars rest (c :: acc)

/-- `filename.split(".")[-1]` from `Playlist.get_local_state` / `LocalVideo.__init__`. -/
def extOf (filename : String) : String :=
  String.mk (extChars filename.toList [])

/-- Association-list lookup, modelling `d[k]` / `k in d` on a Python dict. -/
def alistFind {α : Type} : List (String × α) → String → Option α
  | [], _ => none
  | kv :: rest, k => if kv.1 = k then some kv.2 else alistFind rest k

/-- Association-list write, modelling `d[k] = v`: replace the first entry in
place, otherwise append. -/
def alistSet {α : Type} : List (String × α) → String → α → List (String × α)
  | [], k, v => [(k, v)]
  | kv :: rest, k, v => if kv.1 = k then (k, v) :: rest else kv :: alistSet rest k v

/-- Stable insert: place `v` before the first element whose key is not
strictly smaller, keeping elements with equal keys in their original order. -/
def insertStable {α : Type} (lt : α → α → Bool) (v : α) : List α → List α
  | [] => [v]
  | w :: rest => if lt w v then w :: insertStable lt v rest else v :: w :: rest

/-- Stable sort by a strict comparison, modelling Python `sorted(..., key=f)`
(with `lt a b = f a < f b`) and `sorted(..., key=f, reverse=True)`
(with `lt a b = f b < f a`). -/
def stableSortBy {α : Type} (lt : α → α → Bool) (l : List α) : List α :=
  l.foldr (insertStable lt) []

/-- A playlist dict `map[id]Item`, in insertion order. -/
abbrev Dict := List (String × Video)

/-- The strict comparison used by `sorted(list(local.values()), key=lambda x: x.index)`,
lifted to dict entries (the entry key plays no part in the ordering). -/
def ltIndexPair (a b : String × Video) : Bool :=
  decide (a.2.index.getD 0 < b.2.index.getD 0)

/-- The merge loop of `Playlist.sync`:
`for k, v in remote.items(): local[k].update(v) if k in local else local[k] = v`. -/
def syncMerge (localD remoteD : Dict) : Dict :=
  remoteD.foldl
    (fun acc kv =>
      match alistFind acc kv.1 with
      | some cur => alistSet acc kv.1 (cur.update kv.2)
      | none => alistSet acc kv.1 kv.2)
    localD

/-- `ordered_list = sorted(list(local.values()), key=lambda x: x.index)`,
kept as dict entries so that the in-place mutation of the dict values can be
rendered functionally. -/
def orderedPairs (merged : Dict) : List (String × Video) :=
  stableSortBy ltIndexPair merged

/-- The reindexing walk
`for index, v in enumerate(ordered_list): if index != v.index: v.set_index(index)`. -/
def assignFrom : Nat → List (String × Video) → List (String × Video)
  | _, [] => []
  | i, kv :: rest =>
    (kv.1, if some (Int.ofNat i) ≠ kv.2.index then kv.2.set_index (some (Int.ofNat i)) else kv.2)
      :: assignFrom (i + 1) rest

/-- The merged items after the reindexing walk, in sorted order. -/
def reindexPairs (merged : Dict) : List (String × Video) :=
  assignFrom 0 (orderedPairs merged)

/-- The reconciliation core of `Playlist.sync`: merge the two dicts, sort by
current index, walk the sorted order reassigning 0..n-1. -/
def reconcile (localD remoteD : Dict) : List (String × Video) :=
  reindexPairs (syncMerge localD remoteD)

/-- The merged dict after the walk: the walk mutates the dict values in
place, which is rendered by writing every walked entry back over its key. -/
def finalDict (merged : Dict) : Dict :=
  (reindexPairs merged).foldl (fun acc kv => alistSet acc kv.1 kv.2) merged

/-- One `{url, height}` record of a remote entry's `thumbnails` list. -/
structure Thumb where
  url : String
  height : Int
deriving DecidableEq

/-- One entry of the remote flat-playlist listing.  A `none` field models a
JSON object without that key (`data["..."]` raises `KeyError` there). -/
structure RemoteEntry where
  id : Option String
  title : Option String
  channel : Option String
  thumbnails : List Thumb
deriving DecidableEq

/-- The parsed remote listing: `{"title": ..., "entries": [...]}`. -/
structure RemoteData where
  title : Option String
  entries : List RemoteEntry
deriving DecidableEq

/-- The outcome of the `youtube-dl --flat-playlist -J` subprocess read in
`Playlist.get_remote_state`: empty stdout, undecodable JSON, or parsed data. -/
inductive FetchResult
  | emptyOutput
  | unparsable
  | parsed (d : RemoteData)
deriving DecidableEq

/-- Python exceptions that the modelled code can raise. -/
inductive Err
  | jsonDecodeError
  | attributeNoneItems
  | keyError (k : String)
  | indexError
  | noDownloadDir
  | noIdError
deriving DecidableEq

/-- `data["k"]` on an optional field: the value, or `KeyError`. -/
def pySubscript (v : Option String) (k : String) : Except Err String :=
  match v with
  | some s => Except.ok s
  | none => Except.error (Err.keyError k)

/-- `sorted(data["thumbnails"], key=lambda x: x["height"], reverse=True)[0]["url"]`:
highest-height thumbnail url, `IndexError` on an empty list. -/
def selectThumb (ts : List Thumb) : Except Err String :=
  match stableSortBy (fun a b => decide (b.height < a.height)) ts with
  | [] => Except.error Err.indexError
  | t :: _ => Except.ok t.url

/-- `YoutubeVideo.__init__` for one prepared entry dict.  Note that in the
source the `format=self.mode` keyword is swallowed by `**kwargs` and never
forwarded to `Video.__init__`, so every remote item has `format = 0`. -/
def YoutubeVideo.ofEntry (e : RemoteEntry) (index : Nat) (playlist_title : Option String)
    (album_artist : Option String) : Except Err Video := do
  let t ← pySubscript e.title "title"
  let i ← pySubscript e.id "id"
  let c ← pySubscript e.channel "channel"
  let th ← selectThumb e.thumbnails
  Except.ok
    { title := some t, id := some i, channel := some c, thumbnail := some th,
      index := some (Int.ofNat index), filepath := none, playlist := playlist_title,
      album_artist := album_artist, format := 0,
      u_title := false, u_channel := false, u_thumbnail := false, u_index := false,
      u_album_artist := false, initial_save := false }

/-- `Playlist.add_album_artist` as a state transition on `self.album_artists`. -/
def Playlist.add_album_artist (state : Option String) (artist : Option String) : Option String :=
  match artist with
  | none => state
  | some a =>
    match state with
    | none => some a
    | some s => if s ≠ a then some "Various Artists" else some s

/-- The `[YoutubeVideo(i, ...) for ...]` comprehension over the enumerated
entries; one construction failure aborts the whole comprehension. -/
def buildVideos (playlist_title : Option String) (album_artist : Option String) :
    Nat → List RemoteEntry → Except Err (List Video)
  | _, [] => Except.ok []
  | i, e :: rest => do
    let v ← YoutubeVideo.ofEntry e i playlist_title album_artist
    let vs ← buildVideos playlist_title album_artist (i + 1) rest
    Except.ok (v :: vs)

/-- `Playlist.get_remote_state`: `None` on empty subprocess output, a raised
`json.JSONDecodeError` on undecodable output, otherwise the album-artist fold
over all entry channels followed by the video construction and the
`{i.id: i}` dict (constructed videos always carry `some` id, so the
`getD ""` default is never used). -/
def Playlist.get_remote_state (fetch : FetchResult) (aa0 : Option String) :
    Except Err (Option Dict × Option String) :=
  match fetch with
  | FetchResult.emptyOutput => Except.ok (none, aa0)
  | FetchResult.unparsable => Except.error Err.jsonDecodeError
  | FetchResult.parsed d =>
    let aa := d.entries.foldl (fun s e => Playlist.add_album_artist s e.channel) aa0
    match buildVideos d.title aa 0 d.entries with
    | Except.error err => Except.error err
    | Except.ok vs =>
      Except.ok (some (vs.foldl (fun acc v => alistSet acc (v.id.getD "") v) []), aa)

/-- The embedded tag data of one on-disk file: eyed3 tag fields plus the two
custom comment slots (`youtube_id`, `thumbnail_url`). -/
structure Tags where
  title : Option String
  artist : Option String
  album : Option String
  album_artist : Option String
  track_num : Option Int
  youtube_id : Option String
  thumbnail_url : Option String
deriving DecidableEq

/-- A directory of files: full path to embedded tags, in listing order. -/
abbrev FileSystem := List (String × Tags)

/-- A file with no readable tag fields (fresh download before `initTag`). -/
def emptyTags : Tags :=
  { title := none, artist := none, album := none, album_artist := none,
    track_num := none, youtube_id := none, thumbnail_url := none }

/-- `LocalVideo.__init__`: only the `mp3` extension branch reads tags; any
other extension leaves the fresh `Video()` untouched (so also `filepath` and
`id` stay `None`). -/
def LocalVideo.ofFile (filepath : String) (tags : Tags) : Video :=
  if extOf filepath = "mp3" then
    { Video.init with
      title := tags.title, channel := tags.artist, album_artist := tags.album_artist,
      index := tags.track_num, filepath := some filepath, format := 0,
      playlist := tags.album, id := tags.youtube_id, thumbnail := tags.thumbnail_url }
  else Video.init

/-- `Playlist.get_local_state`: walk the directory, keep files whose final
extension is "mp3" or "pm4" (sic), parse each, and keep those with a truthy
recovered id, threading `self.album_artists` through `add_album_artist`. -/
def Playlist.get_local_state (fs : FileSystem) (aa0 : Option String) :
    Dict × Option String :=
  fs.foldl
    (fun acc ft =>
      if extOf ft.1 = "mp3" ∨ extOf ft.1 = "pm4" then
        let f := LocalVideo.ofFile ft.1 ft.2
        if truthy f.id then
          (alistSet acc.1 (f.id.getD "") f, Playlist.add_album_artist acc.2 f.channel)
        else acc
      else acc)
    ([], aa0)

/-- `"".join(c for c in name if c.isalpha() or c.isdigit() or c == ' ').rstrip()`. -/
def sanitizeName (s : String) : String :=
  String.mk
    (((s.toList.filter (fun c => c.isAlpha || c.isDigit || c = ' ')).reverse.dropWhile
        Char.isWhitespace).reverse)

/-- `Video.download`, with the external downloader and mp3gain modelled as
succeeding (the claims under verification quantify over runs in which every
materialization and write-back succeeds): raises without a truthy id, builds
the sanitized output name, disambiguates an existing path by appending the
id, and moves a fresh file into place. -/
def Video.download (outDir : String) (v : Video) (fs : FileSystem) :
    Except Err (FileSystem × Video) :=
  if truthy v.id = false then Except.error Err.noIdError
  else
    let output_name := sanitizeName (pyStr v.title)
    let output_ext := if v.format = 0 then "mp3" else "mp4"
    let path0 := outDir ++ "/" ++ output_name ++ "." ++ output_ext
    let out_path :=
      if (alistFind fs path0).isSome then
        outDir ++ "/" ++ output_name ++ " - " ++ pyStr v.id ++ "." ++ output_ext
      else path0
    Except.ok
      (alistSet fs out_path emptyTags,
       { v with filepath := some out_path, initial_save := true })

/-- The tag mutation performed by `Video.save_metadata` on an mp3 file's
tags; for any other format the body is skipped entirely. -/
def Video.save_metadata (v : Video) (t : Tags) : Tags :=
  if v.format = 0 then
    { title := if v.initial_save || v.u_title then v.title else t.title,
      artist := if v.initial_save || v.u_channel then v.channel else t.artist,
      album := if v.initial_save then v.playlist else t.album,
      album_artist := if v.initial_save || v.u_album_artist then v.album_artist else t.album_artist,
      track_num := if v.initial_save || v.u_index then v.index else t.track_num,
      youtube_id := if v.initial_save then v.id else t.youtube_id,
      thumbnail_url := if v.initial_save || v.u_thumbnail then v.thumbnail else t.thumbnail_url }
  else t

/-- `Video.save_metadata` acting on the file system: an early return when no
flag (and no initial save) is set, otherwise rewrite the file's tags in
place.  A missing file is left untouched (loading it would raise in Python;
the path is present in every run modelled by the theorems below). -/
def Video.writeToFs (v : Video) (p : String) (fs : FileSystem) : FileSystem :=
  if v.doesWriteBack then
    match alistFind fs p with
    | some t => alistSet fs p (v.save_metadata t)
    | none => fs
  else fs

/-- `Video.sync`: download when not materialized (raising without an output
directory), then write the metadata back when a path exists. -/
def Video.syncApply (outDir : String) (v : Video) (fs : FileSystem) :
    Except Err FileSystem := do
  let r ←
    if v.filepath = none then
      if outDir != "" then Video.download outDir v fs else Except.error Err.noDownloadDir
    else Except.ok (fs, v)
  match r.2.filepath with
  | some p => Except.ok (Video.writeToFs r.2 p r.1)
  | none => Except.ok r.1

/-- The result of one `Playlist.sync` run: resulting directory contents, the
merged dict after reconciliation, and the final `album_artists`. -/
structure SyncResult where
  fs : FileSystem
  items : Dict
  album_artists : Option String
deriving DecidableEq

/-- `Playlist.sync`: local scan first, then remote fetch, then the unguarded
`remote.items()` (raising `AttributeError` when `get_remote_state` returned
`None`), the merge, the reindexing walk, and one `Video.sync` per dict item. -/
def Playlist.sync (outDir : String) (fs : FileSystem) (fetch : FetchResult) :
    Except Err SyncResult := do
  let ls := Playlist.get_local_state fs none
  let rs ← Playlist.get_remote_state fetch ls.2
  match rs.1 with
  | none => Except.error Err.attributeNoneItems
  | some remoteD =>
    let merged := syncMerge ls.1 remoteD
    let finalD := finalDict merged
    let fs2 ← finalD.foldlM (fun a kv => Video.syncApply outDir kv.2 a) fs
    Except.ok { fs := fs2, items := finalD, album_artists := rs.2 }

/-- The `for i in playlists: i.sync()` loop of `main()`: no per-playlist
exception handling, so the first raised exception aborts the whole run. -/
def mainRun : List (String × FileSystem × FetchResult) → Except Err (List SyncResult)
  | [] => Except.ok []
  | p :: rest => do
    let r ← Playlist.sync p.1 p.2.1 p.2.2
    let rs ← mainRun rest
    Except.ok (r :: rs)

/-- One iteration of the `FileLock.acquire` loop.  `markerExists` is whether
the `os.open(..., O_CREAT | O_EXCL)` of the lock marker fails with `EEXIST`;
`timeoutIsNone` is `self.timeout is None`; `timedOut` is
`time.time() - start_time >= self.timeout`. -/
inductive AcquireIterResult
  | acquired
  | raiseFileLockException (msg : String)
  | sleepAndRetry
deriving DecidableEq

/-- The body of the `while True:` loop in `FileLock.acquire`. -/
def FileLock.acquireIter (markerExists timeoutIsNone timedOut : Bool)
    (file_name : String) : AcquireIterResult :=
  if markerExists = false then AcquireIterResult.acquired
  else if timeoutIsNone then
    AcquireIterResult.raiseFileLockException ("Could not acquire lock on " ++ file_name)
  else if timedOut then AcquireIterResult.raiseFileLockException "Timeout occured."
  else AcquireIterResult.sleepAndRetry

/-- What the `__main__` guard observably does: whether `main()` runs and what
is printed when the `FileLockException` is caught. -/
structure RunOutcome where
  ranMain : Bool
  printed : Option String
deriving DecidableEq

/-- The `__main__` guard: `with FileLock(LOCKFILE, timeout=None): main()`
wrapped in `except FileLockException: print("Instance already running")`.
With `timeout=None` the first loop iteration already decides the outcome. -/
def mainGuard (markerExists : Bool) : RunOutcome :=
  match FileLock.acquireIter markerExists true false "lockfile" with
  | AcquireIterResult.acquired => { ranMain := true, printed := none }
  | AcquireIterResult.raiseFileLockException _ =>
    { ranMain := false, printed := some "Instance already running" }
  | AcquireIterResult.sleepAndRetry => { ranMain := false, printed := none }

/-- The album-artist computation over a sequence of observed (non-null)
channel values, starting from the fresh `self.album_artists = None`. -/
def foldAA (l : List String) : Option String :=
  l.foldl (fun s a => Playlist.add_album_artist s (some a)) none

/-- Lexicographic comparison of character lists (Python string `<`). -/
def strLtChars : List Char → List Char → Bool
  | [], [] => false
  | [], _ :: _ => true
  | _ :: _, [] => false
  | a :: as, b :: bs => if a < b then true else if b < a then false else strLtChars as bs

/-- Python string `<`, spelled out on the characters. -/
def pyStrLt (a b : String) : Bool := strLtChars a.toList b.toList

/-- Modelled from the spec: the claim of step 4 says the merged list is
"sorted by current index ascending (ties broken by id)"; this is that
sort, stated for comparison against the source's `orderedPairs` (which
sorts by index only). -/
def specOrderedPairs (merged : Dict) : List (String × Video) :=
  stableSortBy
    (fun a b =>
      decide (a.2.index.getD 0 < b.2.index.getD 0)
        || (decide (a.2.index.getD 0 = b.2.index.getD 0)
              && pyStrLt (pyStr a.2.id) (pyStr b.2.id)))
    merged

/-- An entry on which `YoutubeVideo.__init__` raises: a missing required
key, or an empty `thumbnails` list. -/
def badEntry (e : RemoteEntry) : Prop :=
  e.title = none ∨ e.id = none ∨ e.channel = none ∨ e.thumbnails = []

/-- Concrete remote entry that constructs fine. -/
def c6goodEntry : RemoteEntry :=
  { id := some "g", title := some "G", channel := some "C",
    thumbnails := [{ url := "u", height := 1 }] }

/-- Concrete remote entry with no discoverable thumbnail. -/
def c6badEntry : RemoteEntry :=
  { id := some "b", title := some "B", channel := some "C", thumbnails := [] }

/-- Two local items sharing index 0; the id order ("a" before "b") disagrees
with the insertion order ("b" before "a"). -/
def c7vb : Video :=
  { Video.init with
    id := some "b", title := some "B", index := some 0,
    filepath := some "d/b.mp3" }

/-- The id-smaller of the two tied items. -/
def c7va : Video :=
  { Video.init with
    id := some "a", title := some "A", index := some 0,
    filepath := some "d/a.mp3" }

/-- The merged dict for the tie-break counterexample. -/
def c7merged : Dict := [("b", c7vb), ("a", c7va)]

/-- Tags of the pre-existing local file in the idempotence counterexample. -/
def c1tagsB : Tags :=
  { title := some "B", artist := some "A", album := some "P",
    album_artist := some "A", track_num := some 0,
    youtube_id := some "b", thumbnail_url := some "tb" }

/-- Initial directory contents for the idempotence counterexample: one
already-materialized local-only item with index 0. -/
def c1fs0 : FileSystem := [("d/b.mp3", c1tagsB)]

/-- The remote listing for the idempotence counterexample: a single entry,
so its enumerate index is 0, colliding with the local-only item's index. -/
def c1fetch : FetchResult :=
  FetchResult.parsed
    { title := some "P",
      entries := [{ id := some "a", title := some "ASong", channel := some "A",
                    thumbnails := [{ url := "ua", height := 100 }] }] }

/-- First reconciliation pass of the idempotence counterexample. -/
def c1pass1 : Except Err SyncResult := Playlist.sync "d" c1fs0 c1fetch

/-- Directory contents after the first pass. -/
def c1fs1 : FileSystem :=
  match c1pass1 with
  | Except.ok r => r.fs
  | Except.error _ => []

/-- Second reconciliation pass, same remote data, against the first pass's
resulting local state. -/
def c1pass2 : Except Err SyncResult := Playlist.sync "d" c1fs1 c1fetch

/-- The per-item write-back guards of the second pass, in dict order. -/
def c1pass2WriteBacks : Option (List Bool) :=
  match c1pass2 with
  | Except.ok r => some (r.items.map (fun kv => kv.2.doesWriteBack))
  | Except.error _ => none

/-- The per-item index dirty flags of the second pass, in dict order. -/
def c1pass2IndexFlags : Option (List Bool) :=
  match c1pass2 with
  | Except.ok r => some (r.items.map (fun kv => kv.2.u_index))
  | Except.error _ => none

/-- Whether the first pass completed with every materialization and
write-back succeeding (the model performs them all). -/
def c1pass1Ok : Bool :=
  match c1pass1 with
  | Except.ok _ => true
  | Except.error _ => false

/-- Tags with only a recoverable id, for the extension-filter witness. -/
def c10tags : Tags := { emptyTags with youtube_id := some "x" }

/-- The tags `save_metadata` leaves in a file whose item carries `v`'s
fields: every slot that the write rewrites (or that already agreed) holds
the item's value. -/
def tagsFromVideo (v : Video) : Tags :=
  { title := v.title, artist := v.channel, album := v.playlist,
    album_artist := v.album_artist, track_num := v.index,
    youtube_id := v.id, thumbnail_url := v.thumbnail }

/-- The invariant tying an in-memory item to its on-disk tags: every field
whose dirty flag is clear agrees with the file, and the fields that only an
initial save rewrites (album and the id comment) always agree.  A freshly
parsed `LocalVideo` satisfies it, and the setters preserve it. -/
def Video.matchesFile (v : Video) (t : Tags) : Prop :=
  (v.u_title = false → t.title = v.title)
  ∧ (v.u_channel = false → t.artist = v.channel)
  ∧ (v.u_thumbnail = false → t.thumbnail_url = v.thumbnail)
  ∧ (v.u_index = false → t.track_num = v.index)
  ∧ (v.u_album_artist = false → t.album_artist = v.album_artist)
  ∧ t.album = v.playlist
  ∧ t.youtube_id = v.id

/-- An entry on which `YoutubeVideo.__init__` succeeds. -/
def goodEntry (e : RemoteEntry) : Prop :=
  e.title.isSome = true ∧ e.id.isSome = true ∧ e.channel.isSome = true ∧ e.thumbnails ≠ []

/-- The url `selectThumb` picks on a nonempty thumbnail list. -/
def thumbHead (ts : List Thumb) : String :=
  match stableSortBy (fun a b => decide (b.height < a.height)) ts with
  | [] => ""
  | t :: _ => t.url

/-- The item `YoutubeVideo.__init__` produces from a good entry. -/
def videoOfEntryP (e : RemoteEntry) (index : Nat) (playlist_title : Option String)
    (album_artist : Option String) : Video :=
  { title := e.title, id := e.id, channel := e.channel,
    thumbnail := some (thumbHead e.thumbnails), index := some (Int.ofNat index),
    filepath := none, playlist := playlist_title, album_artist := album_artist,
    format := 0, u_title := false, u_channel := false, u_thumbnail := false,
    u_index := false, u_album_artist := false, initial_save := false }

/-- The videos of the enumerated comprehension, when every entry is good. -/
def remoteVideos (playlist_title : Option String) (album_artist : Option String) :
    Nat → List RemoteEntry → List Video
  | _, [] => []
  | i, e :: rest =>
    videoOfEntryP e i playlist_title album_artist
      :: remoteVideos playlist_title album_artist (i + 1) rest

/-- The remote dict `{i.id: i}` those videos produce (ids distinct). -/
def remoteDictOf (es : List RemoteEntry) (playlist_title : Option String)
    (album_artist : Option String) : Dict :=
  (remoteVideos playlist_title album_artist 0 es).map (fun v => (v.id.getD "", v))

/-- The `album_artists` thread through a local scan in which every file
participates. -/
def localAA (fs : FileSystem) (aa0 : Option String) : Option String :=
  fs.foldl (fun s pt => Playlist.add_album_artist s pt.2.artist) aa0

/-- The `album_artists` thread through the remote entry loop. -/
def remoteAA (es : List RemoteEntry) (aa : Option String) : Option String :=
  es.foldl (fun s e => Playlist.add_album_artist s e.channel) aa

/-- The final `album_artists` of one pass: local first, then remote. -/
def passAA (fs : FileSystem) (es : List RemoteEntry) : Option String :=
  remoteAA es (localAA fs none)

/-- The dict key under which the local scan stores a file. -/
def localKeyOf (pt : String × Tags) : String := pt.2.youtube_id.getD ""

/-- The merged item a pass produces for one local file: the parsed local
descriptor, updated with the remote descriptor stored under the same id
(left alone when the remote dict misses the id). -/
def passItem (es : List RemoteEntry) (playlist_title : Option String)
    (aaR : Option String) (pt : String × Tags) : Video :=
  match alistFind (remoteDictOf es playlist_title aaR) (localKeyOf pt) with
  | some w => (LocalVideo.ofFile pt.1 pt.2).update w
  | none => LocalVideo.ofFile pt.1 pt.2

/-- Tags of the concrete already-synced file used to instantiate the
amended idempotence theorem. -/
def c1wtags : Tags :=
  { title := some "ASong", artist := some "A", album := some "P",
    album_artist := some "A", track_num := some 0,
    youtube_id := some "a", thumbnail_url := some "ua" }

/-- The matching concrete remote entry (same id, title, channel as the
file's tags, one thumbnail). -/
def c1wentry : RemoteEntry :=
  { id := some "a", title := some "ASong", channel := some "A",
    thumbnails := [{ url := "ua", height := 10 }] }

/-! ### Basic lemmas about the setters and the walk -/

/-- A `set_index` always leaves the incoming value in the field. -/
theorem Video.set_index_index (v : Video) (x : Option Int) :
    (v.set_index x).index = x := by
  unfold Video.set_index
  split
  · rfl
  · next h => exact (not_ne_iff.mp h).symm

/-- The walk stores position `i + j` in the item at offset `j`. -/
theorem assignFrom_map_index (l : List (String × Video)) (i : Nat) :
    (assignFrom i l).map (fun kv => kv.2.index)
      = (List.range l.length).map (fun j => some (Int.ofNat (i + j))) := by
  induction l generalizing i with
  | nil => simp [assignFrom]
  | cons hd tl ih =>
    simp only [assignFrom, List.map_cons, List.length_cons, List.range_succ_eq_map,
      List.map_map]
    congr 1
    · show (if some (Int.ofNat i) ≠ hd.2.index then
          hd.2.set_index (some (Int.ofNat i)) else hd.2).index = some (Int.ofNat (i + 0))
      simp only [Nat.add_zero]
      split
      · rw [Video.set_index_index]
      · next h => exact (not_ne_iff.mp h).symm
    · rw [ih (i + 1)]
      apply List.map_congr_left
      intro j _
      simp only [Function.comp_apply]
      congr 2
      omega

/-- Membership after an `alistSet` write comes from the write or the rest. -/
theorem mem_alistSet {α : Type} (d : List (String × α)) (k : String) (v : α)
    (kv : String × α) (h : kv ∈ alistSet d k v) : kv = (k, v) ∨ kv ∈ d := by
  induction d with
  | nil => simpa [alistSet] using h
  | cons hd tl ih =>
    simp only [alistSet] at h
    split at h
    · rcases List.mem_cons.mp h with h1 | h1
      · exact Or.inl h1
      · exact Or.inr (List.mem_cons_of_mem _ h1)
    · rcases List.mem_cons.mp h with h1 | h1
      · exact Or.inr (h1 ▸ List.mem_cons_self _ _)
      · rcases ih h1 with h2 | h2
        · exact Or.inl h2
        · exact Or.inr (List.mem_cons_of_mem _ h2)

/-! ### Stable sort: permutation -/

/-- Inserting is a permutation of consing. -/
theorem insertStable_perm {α : Type} (lt : α → α → Bool) (v : α) (l : List α) :
    (insertStable lt v l).Perm (v :: l) := by
  induction l with
  | nil => simp [insertStable]
  | cons w rest ih =>
    simp only [insertStable]
    split
    · exact ((ih.cons w).trans (List.Perm.swap v w rest))
    · exact List.Perm.refl _

/-- The stable sort permutes its input. -/
theorem stableSortBy_perm {α : Type} (lt : α → α → Bool) (l : List α) :
    (stableSortBy lt l).Perm l := by
  induction l with
  | nil => simp [stableSortBy]
  | cons x rest ih =>
    have : stableSortBy lt (x :: rest) = insertStable lt x (stableSortBy lt rest) := rfl
    rw [this]
    exact (insertStable_perm lt x _).trans (ih.cons x)

/-! ### C3: the update contract -/

/-- C3: `update` compares every tracked field (title, channel, thumbnail,
index, album artist); it always ends holding the incoming value, sets the
field's dirty flag exactly on inequality, leaves the flag alone on equality,
never clears an already-set flag, and touches no other attribute. -/
theorem c3_update_contract (v w : Video) :
    (v.update w).title = w.title
    ∧ (w.title ≠ v.title → (v.update w).u_title = true)
    ∧ (w.title = v.title → (v.update w).u_title = v.u_title)
    ∧ (v.u_title = true → (v.update w).u_title = true)
    ∧ (v.update w).channel = w.channel
    ∧ (w.channel ≠ v.channel → (v.update w).u_channel = true)
    ∧ (w.channel = v.channel → (v.update w).u_channel = v.u_channel)
    ∧ (v.u_channel = true → (v.update w).u_channel = true)
    ∧ (v.update w).thumbnail = w.thumbnail
    ∧ (w.thumbnail ≠ v.thumbnail → (v.update w).u_thumbnail = true)
    ∧ (w.thumbnail = v.thumbnail → (v.update w).u_thumbnail = v.u_thumbnail)
    ∧ (v.u_thumbnail = true → (v.update w).u_thumbnail = true)
    ∧ (v.update w).index = w.index
    ∧ (w.index ≠ v.index → (v.update w).u_index = true)
    ∧ (w.index = v.index → (v.update w).u_index = v.u_index)
    ∧ (v.u_index = true → (v.update w).u_index = true)
    ∧ (v.update w).album_artist = w.album_artist
    ∧ (w.album_artist ≠ v.album_artist → (v.update w).u_album_artist = true)
    ∧ (w.album_artist = v.album_artist → (v.update w).u_album_artist = v.u_album_artist)
    ∧ (v.u_album_artist = true → (v.update w).u_album_artist = true)
    ∧ (v.update w).id = v.id
    ∧ (v.update w).filepath = v.filepath
    ∧ (v.update w).playlist = v.playlist
    ∧ (v.update w).format = v.format
    ∧ (v.update w).initial_save = v.initial_save := by
  unfold Video.update Video.set_title Video.set_channel Video.set_thumbnail Video.set_index
    Video.set_album_artist
  split_ifs <;> simp_all

/-! ### C9: exclusion exit behavior -/

/-- C9: when the lock marker already exists and `timeout` is `None`, the very
first iteration of `FileLock.acquire` raises `FileLockException` (no sleep,
no retry), and the `__main__` guard catches it and ends the run with the
informational message "Instance already running" without running `main`. -/
theorem c9_lock_exit (file_name : String) (markerExists : Bool)
    (h : markerExists = true) :
    FileLock.acquireIter markerExists true false file_name
      = AcquireIterResult.raiseFileLockException ("Could not acquire lock on " ++ file_name)
    ∧ mainGuard markerExists
      = { ranMain := false, printed := some "Instance already running" } := by
  subst h
  exact ⟨rfl, rfl⟩

/-- Witness for C9 with the marker present. -/
theorem c9_lock_exit_witness :
    FileLock.acquireIter true true false "lockfile"
      = AcquireIterResult.raiseFileLockException ("Could not acquire lock on " ++ "lockfile")
    ∧ mainGuard true = { ranMain := false, printed := some "Instance already running" } :=
  c9_lock_exit "lockfile" true rfl

/-! ### C5: empty fetch aborts the whole run -/

/-- C5 (the code-level behavior): an empty remote fetch makes
`get_remote_state` return `None`, on which `Playlist.sync` raises
`AttributeError` at `remote.items()` before any item is touched (the write
loop is after the raise), and because `main()` has no per-playlist handler
the exception aborts the entire run, so the remaining collections never
sync. -/
theorem c5_empty_fetch_aborts_run (outDir : String) (fs : FileSystem)
    (rest : List (String × FileSystem × FetchResult)) :
    Playlist.sync outDir fs FetchResult.emptyOutput = Except.error Err.attributeNoneItems
    ∧ mainRun ((outDir, fs, FetchResult.emptyOutput) :: rest)
        = Except.error Err.attributeNoneItems := by
  refine ⟨rfl, ?_⟩
  show (do
    let r ← Playlist.sync outDir fs FetchResult.emptyOutput
    let rs ← mainRun rest
    Except.ok (r :: rs)) = Except.error Err.attributeNoneItems
  rfl

/-! ### C8: the artist collapse -/

/-- Reduction of `add_album_artist` on two present values. -/
theorem add_album_artist_some_some (s a : String) :
    Playlist.add_album_artist (some s) (some a)
      = if s ≠ a then some "Various Artists" else some s := rfl

/-- Once the fold reaches the sentinel it stays there. -/
theorem foldAA_go_absorb (l : List String) :
    l.foldl (fun s a => Playlist.add_album_artist s (some a)) (some "Various Artists")
      = some "Various Artists" := by
  induction l with
  | nil => rfl
  | cons a rest ih =>
    simp only [List.foldl_cons]
    have hstep : Playlist.add_album_artist (some "Various Artists") (some a)
        = some "Various Artists" := by
      rw [add_album_artist_some_some]
      split <;> rfl
    rw [hstep, ih]

/-- From a committed first value, the fold keeps it exactly when every later
observation equals it, and collapses to the sentinel otherwise. -/
theorem foldAA_go_char (v : String) (l : List String) :
    l.foldl (fun s a => Playlist.add_album_artist s (some a)) (some v)
      = if ∀ x ∈ l, x = v then some v else some "Various Artists" := by
  induction l with
  | nil => simp
  | cons a rest ih =>
    simp only [List.foldl_cons]
    by_cases hav : a = v
    · subst hav
      have hstep : Playlist.add_album_artist (some a) (some a) = some a := by
        rw [add_album_artist_some_some]
        simp
      rw [hstep, ih]
      simp [List.forall_mem_cons]
    · have hstep : Playlist.add_album_artist (some v) (some a) = some "Various Artists" := by
        rw [add_album_artist_some_some, if_pos (fun h => hav h.symm)]
      rw [hstep, foldAA_go_absorb, if_neg]
      intro hall
      exact hav (hall a (List.mem_cons_self a rest))

/-- The observed collection artist is the first value when all observations
agree with it, and the sentinel otherwise. -/
theorem foldAA_cons (a : String) (l : List String) :
    foldAA (a :: l) = if ∀ x ∈ l, x = a then some a else some "Various Artists" := by
  unfold foldAA
  simp only [List.foldl_cons]
  have hstep : Playlist.add_album_artist none (some a) = some a := rfl
  rw [hstep, foldAA_go_char]

/-- C8: the computed `collectionArtist` over a sequence of observed non-null
channel values is order-independent, equals the value when exactly one
distinct value is observed, and is the "Various Artists" sentinel when at
least two distinct values are observed. -/
theorem c8_artist_collapse (l ln : List String) (a : String) (hperm : l.Perm ln) :
    foldAA l = foldAA ln
    ∧ (a ∈ l → (∀ x ∈ l, x = a) → foldAA l = some a)
    ∧ ((∃ x ∈ l, ∃ y ∈ l, x ≠ y) → foldAA l = some "Various Artists") := by
  refine ⟨?_, ?_, ?_⟩
  · cases l with
    | nil =>
      have hn : ([] : List String) = ln := hperm.nil_eq
      rw [← hn]
    | cons h t =>
      cases ln with
      | nil => simpa using hperm.eq_nil
      | cons h2 t2 =>
        rw [foldAA_cons, foldAA_cons]
        by_cases hall : ∀ x ∈ t, x = h
        · have halll : ∀ x ∈ h :: t, x = h := by
            intro x hx
            rcases List.mem_cons.mp hx with hq | hq
            · exact hq
            · exact hall x hq
          have hall2 : ∀ x ∈ h2 :: t2, x = h := fun x hx => halll x (hperm.mem_iff.mpr hx)
          have hh2 : h2 = h := hall2 h2 (List.mem_cons_self _ _)
          have ht2 : ∀ x ∈ t2, x = h2 := fun x hx =>
            (hall2 x (List.mem_cons_of_mem _ hx)).trans hh2.symm
          rw [if_pos hall, if_pos ht2, hh2]
        · rw [if_neg hall, if_neg]
          intro hall2
          apply hall
          intro x hx
          have hx2 : x ∈ h2 :: t2 := hperm.mem_iff.mp (List.mem_cons_of_mem _ hx)
          have hmem2 : h ∈ h2 :: t2 := hperm.mem_iff.mp (List.mem_cons_self _ _)
          have hxh2 : x = h2 := by
            rcases List.mem_cons.mp hx2 with hq | hq
            · exact hq
            · exact hall2 x hq
          have hhh2 : h = h2 := by
            rcases List.mem_cons.mp hmem2 with hq | hq
            · exact hq
            · exact hall2 h hq
          rw [hxh2, hhh2]
  · intro hmem hall
    cases l with
    | nil => cases hmem
    | cons h t =>
      have hh : h = a := hall h (List.mem_cons_self _ _)
      subst hh
      rw [foldAA_cons, if_pos (fun x hx => hall x (List.mem_cons_of_mem _ hx))]
  · rintro ⟨x, hx, y, hy, hxy⟩
    cases l with
    | nil => cases hx
    | cons h t =>
      rw [foldAA_cons, if_neg]
      intro hall
      have hax : x = h := by
        rcases List.mem_cons.mp hx with hq | hq
        · exact hq
        · exact hall x hq
      have hay : y = h := by
        rcases List.mem_cons.mp hy with hq | hq
        · exact hq
        · exact hall y hq
      exact hxy (hax.trans hay.symm)

/-- Witness for C8: the spec's two examples, derived from the theorem. -/
theorem c8_artist_collapse_witness :
    foldAA ["A", "A", "B"] = some "Various Artists" ∧ foldAA ["A", "A"] = some "A" :=
  ⟨(c8_artist_collapse ["A", "A", "B"] ["B", "A", "A"] "A" (by decide)).2.2
      ⟨"A", by decide, "B", by decide, by decide⟩,
   (c8_artist_collapse ["A", "A"] ["A", "A"] "A" (by decide)).2.1 (by decide) (by decide)⟩

/-! ### C2: index contiguity -/

/-- C2: on a merged set whose indices are all present (a run Python can
complete), the reindexing walk leaves the items carrying exactly the indices
0, 1, ..., n-1 in sorted order — the set {0..n-1} with no duplicates. -/
theorem c2_index_contiguity (localD remoteD : Dict)
    (_hidx : ∀ kv ∈ syncMerge localD remoteD, kv.2.index.isSome = true) :
    (reconcile localD remoteD).map (fun kv => kv.2.index)
      = (List.range (syncMerge localD remoteD).length).map (fun j => some (Int.ofNat j)) := by
  unfold reconcile reindexPairs
  rw [assignFrom_map_index]
  have hlen : (orderedPairs (syncMerge localD remoteD)).length
      = (syncMerge localD remoteD).length :=
    (stableSortBy_perm _ _).length_eq
  rw [hlen]
  simp

/-- Witness for C2 on a one-item merge. -/
theorem c2_index_contiguity_witness :
    (reconcile [("a", c7va)] []).map (fun kv => kv.2.index)
      = (List.range (syncMerge [("a", c7va)] []).length).map (fun j => some (Int.ofNat j)) :=
  c2_index_contiguity [("a", c7va)] [] (by decide)

/-! ### C10: the local-scan extension filter -/

/-- Every item the local scan adds comes from a file whose final
dot-separated extension is literally "mp3" or "pm4" (never "mp4"). -/
theorem get_local_state_fold_mem (fs : FileSystem) (acc : Dict × Option String)
    (kv : String × Video)
    (h : kv ∈ (fs.foldl
      (fun acc ft =>
        if extOf ft.1 = "mp3" ∨ extOf ft.1 = "pm4" then
          let f := LocalVideo.ofFile ft.1 ft.2
          if truthy f.id then
            (alistSet acc.1 (f.id.getD "") f, Playlist.add_album_artist acc.2 f.channel)
          else acc
        else acc) acc).1) :
    kv ∈ acc.1
    ∨ ∃ pt, pt ∈ fs ∧ (extOf pt.1 = "mp3" ∨ extOf pt.1 = "pm4")
        ∧ kv.2 = LocalVideo.ofFile pt.1 pt.2 := by
  induction fs generalizing acc with
  | nil => exact Or.inl h
  | cons ft rest ih =>
    simp only [List.foldl_cons] at h
    rcases ih _ h with hacc | ⟨pt, hpt, hext, hval⟩
    · by_cases hext : extOf ft.1 = "mp3" ∨ extOf ft.1 = "pm4"
      · rw [if_pos hext] at hacc
        by_cases htr : truthy (LocalVideo.ofFile ft.1 ft.2).id = true
        · simp only [htr, if_true] at hacc
          rcases mem_alistSet _ _ _ _ hacc with heq | hmem
          · exact Or.inr ⟨ft, List.mem_cons_self _ _, hext, by rw [heq]⟩
          · exact Or.inl hmem
        · simp only [htr, if_false] at hacc
          exact Or.inl hacc
      · rw [if_neg hext] at hacc
        exact Or.inl hacc
    · exact Or.inr ⟨pt, List.mem_cons_of_mem _ hpt, hext, hval⟩

/-- C10: `get_local_state` adds a file to the local set only when its final
dot-separated extension is exactly "mp3" or "pm4"; in particular an "mp4"
file never enters the local set (so a previously materialized video item is
always treated as remote-only). -/
theorem c10_extension_filter (fs : FileSystem) (aa0 : Option String)
    (kv : String × Video) (h : kv ∈ (Playlist.get_local_state fs aa0).1) :
    ∃ pt, pt ∈ fs ∧ (extOf pt.1 = "mp3" ∨ extOf pt.1 = "pm4") ∧ extOf pt.1 ≠ "mp4"
      ∧ kv.2 = LocalVideo.ofFile pt.1 pt.2 := by
  have hmem := get_local_state_fold_mem fs ([], aa0) kv h
  rcases hmem with habs | ⟨pt, hpt, hext, hval⟩
  · cases habs
  · refine ⟨pt, hpt, hext, ?_, hval⟩
    rcases hext with hq | hq <;> simp [hq]

/-- Witness for C10 on a one-file directory. -/
theorem c10_extension_filter_witness :
    ∃ pt, pt ∈ [("a.mp3", c10tags)]
      ∧ (extOf pt.1 = "mp3" ∨ extOf pt.1 = "pm4") ∧ extOf pt.1 ≠ "mp4"
      ∧ ("x", LocalVideo.ofFile "a.mp3" c10tags).2 = LocalVideo.ofFile pt.1 pt.2 :=
  c10_extension_filter [("a.mp3", c10tags)] none
    ("x", LocalVideo.ofFile "a.mp3" c10tags) (by decide)

/-! ### C6: per-entry construction failure -/

/-- The counterexample to C6 as claimed: a listing with one good entry and
one thumbnail-less entry does not drop the bad entry and keep the rest — the
whole fetch is aborted by the raised `IndexError`. -/
theorem c6_counterexample :
    Playlist.get_remote_state
        (FetchResult.parsed { title := some "T", entries := [c6goodEntry, c6badEntry] }) none
      = Except.error Err.indexError := rfl

/-- A bad entry makes `YoutubeVideo.__init__` raise. -/
theorem ofEntry_error (e : RemoteEntry) (i : Nat) (T aa : Option String)
    (h : badEntry e) : ∃ err, YoutubeVideo.ofEntry e i T aa = Except.error err := by
  rcases e with ⟨eid, etitle, echan, eth⟩
  cases etitle with
  | none => exact ⟨Err.keyError "title", rfl⟩
  | some t =>
    cases eid with
    | none => exact ⟨Err.keyError "id", rfl⟩
    | some idv =>
      cases echan with
      | none => exact ⟨Err.keyError "channel", rfl⟩
      | some c =>
        simp only [badEntry] at h
        rcases h with h | h | h | h
        · exact absurd h (by simp)
        · exact absurd h (by simp)
        · exact absurd h (by simp)
        · subst h
          exact ⟨Err.indexError, rfl⟩

/-- One bad entry anywhere in the listing fails the whole comprehension. -/
theorem buildVideos_error (T aa : Option String) (es : List RemoteEntry)
    (h : ∃ e ∈ es, badEntry e) (i : Nat) :
    ∃ err, buildVideos T aa i es = Except.error err := by
  induction es generalizing i with
  | nil => simp at h
  | cons e rest ih =>
    rcases h with ⟨x, hx, hbad⟩
    rcases List.mem_cons.mp hx with hq | hq
    · subst hq
      obtain ⟨err, herr⟩ := ofEntry_error x i T aa hbad
      refine ⟨err, ?_⟩
      simp only [buildVideos]
      rw [herr]
      rfl
    · cases hres : YoutubeVideo.ofEntry e i T aa with
      | error err =>
        refine ⟨err, ?_⟩
        simp only [buildVideos]
        rw [hres]
        rfl
      | ok v =>
        obtain ⟨err, herr⟩ := ih ⟨x, hq, hbad⟩ (i + 1)
        refine ⟨err, ?_⟩
        simp only [buildVideos]
        rw [hres]
        show (do
          let vs ← buildVideos T aa (i + 1) rest
          Except.ok (v :: vs)) = Except.error err
        rw [herr]
        rfl

/-- C6 (amended): constructing a remote-sourced item with no discoverable
thumbnail or a missing required key is a raised exception that aborts the
ENTIRE remote fetch; no entry is reported-and-dropped and the remaining
entries are not fetched. -/
theorem c6_amended_construction_failure_aborts_fetch (d : RemoteData)
    (aa0 : Option String) (h : ∃ e ∈ d.entries, badEntry e) :
    ∃ err, Playlist.get_remote_state (FetchResult.parsed d) aa0 = Except.error err := by
  obtain ⟨err, herr⟩ :=
    buildVideos_error d.title
      (d.entries.foldl (fun s e => Playlist.add_album_artist s e.channel) aa0) d.entries h 0
  refine ⟨err, ?_⟩
  simp only [Playlist.get_remote_state]
  rw [herr]

/-- Witness for the amended C6 on a single bad entry. -/
theorem c6_amended_construction_failure_aborts_fetch_witness :
    ∃ err, Playlist.get_remote_state
        (FetchResult.parsed { title := some "T", entries := [c6badEntry] }) none
      = Except.error err :=
  c6_amended_construction_failure_aborts_fetch
    { title := some "T", entries := [c6badEntry] } none
    ⟨c6badEntry, List.mem_cons_self _ _, Or.inr (Or.inr (Or.inr rfl))⟩

/-! ### C7: ordering and the tie break -/

/-- The counterexample to C7 as claimed: on two merged items with equal
index, the source's sort keeps insertion order ("b" before "a"), while a
sort with an id tie-break would put "a" first; the resulting index
assignments differ. -/
theorem c7_counterexample :
    orderedPairs c7merged ≠ specOrderedPairs c7merged
    ∧ (reindexPairs c7merged).map (fun kv => (kv.1, kv.2.index))
        = [("b", some 0), ("a", some 1)]
    ∧ (assignFrom 0 (specOrderedPairs c7merged)).map (fun kv => (kv.1, kv.2.index))
        = [("a", some 0), ("b", some 1)] := by
  refine ⟨?_, ?_, ?_⟩ <;> decide

/-- Members of a stable insert. -/
theorem mem_insertStable {α : Type} (lt : α → α → Bool) (v x : α) (l : List α)
    (h : x ∈ insertStable lt v l) : x = v ∨ x ∈ l := by
  have := (insertStable_perm lt v l).mem_iff.mp h
  simpa using this

/-- A stable insert into a sorted list stays sorted (for an asymmetric
comparison whose negation is transitive). -/
theorem insertStable_pairwise {α : Type} (lt : α → α → Bool)
    (hasymm : ∀ a b, lt a b = true → lt b a = false)
    (htrans : ∀ a b c, lt b a = false → lt c b = false → lt c a = false)
    (v : α) (l : List α) (hl : l.Pairwise (fun a b => lt b a = false)) :
    (insertStable lt v l).Pairwise (fun a b => lt b a = false) := by
  induction l with
  | nil => simp [insertStable]
  | cons w rest ih =>
    rcases List.pairwise_cons.mp hl with ⟨hw, hrest⟩
    simp only [insertStable]
    split
    · next hlt =>
      refine List.pairwise_cons.mpr ⟨?_, ih hrest⟩
      intro x hx
      rcases mem_insertStable lt v x rest hx with hq | hq
      · subst hq
        exact hasymm w x hlt
      · exact hw x hq
    · next hlt =>
      have hwv : lt w v = false := by simpa using hlt
      refine List.pairwise_cons.mpr ⟨?_, hl⟩
      intro x hx
      rcases List.mem_cons.mp hx with hq | hq
      · subst hq
        exact hwv
      · exact htrans v w x hwv (hw x hq)

/-- The stable sort sorts. -/
theorem stableSortBy_pairwise {α : Type} (lt : α → α → Bool)
    (hasymm : ∀ a b, lt a b = true → lt b a = false)
    (htrans : ∀ a b c, lt b a = false → lt c b = false → lt c a = false)
    (l : List α) :
    (stableSortBy lt l).Pairwise (fun a b => lt b a = false) := by
  induction l with
  | nil => simp [stableSortBy]
  | cons x rest ih =>
    exact insertStable_pairwise lt hasymm htrans x _ ih

/-- Inserting an element of a key class before which nothing of the class
sorts strictly keeps the class filter in order, with the element first. -/
theorem insertStable_filter_pos {α : Type} (lt : α → α → Bool) (p : α → Bool) (v : α)
    (l : List α) (hv : p v = true) (hcls : ∀ w, p w = true → lt w v = false) :
    (insertStable lt v l).filter p = v :: l.filter p := by
  induction l with
  | nil => simp [insertStable, hv]
  | cons w rest ih =>
    simp only [insertStable]
    split
    · next hlt =>
      have hpw : p w = false := by
        cases hq : p w
        · rfl
        · rw [hcls w hq] at hlt
          exact absurd hlt (by simp)
      simp [List.filter_cons, hpw, ih]
    · simp [List.filter_cons, hv]

/-- Inserting an element outside the class leaves the class filter alone. -/
theorem insertStable_filter_neg {α : Type} (lt : α → α → Bool) (p : α → Bool) (v : α)
    (l : List α) (hv : p v = false) :
    (insertStable lt v l).filter p = l.filter p := by
  induction l with
  | nil => simp [insertStable, hv]
  | cons w rest ih =>
    simp only [insertStable]
    split
    · simp [List.filter_cons, ih]
    · simp [List.filter_cons, hv]

/-- Stability of the sort: the filter to any single key class — a set of
elements that never sort strictly before one another — is preserved. -/
theorem stableSortBy_filter {α : Type} (lt : α → α → Bool) (p : α → Bool)
    (hcls : ∀ a b, p a = true → p b = true → lt a b = false) (l : List α) :
    (stableSortBy lt l).filter p = l.filter p := by
  induction l with
  | nil => rfl
  | cons x rest ih =>
    show (insertStable lt x (stableSortBy lt rest)).filter p = (x :: rest).filter p
    cases hx : p x
    · rw [insertStable_filter_neg lt p x _ hx, ih]
      simp [List.filter_cons, hx]
    · rw [insertStable_filter_pos lt p x _ hx (fun w hw => hcls w x hw hx), ih]
      simp [List.filter_cons, hx]

/-- C7 (amended): the merged list is sorted by current index ascending, as a
permutation of the merged dict, with ties kept in the merged dict's
insertion order (local entries first, then newly-inserted remote entries) —
not broken by id; the assignment is a function of the two input sequences,
so identical runs produce identical output. -/
theorem c7_amended_stable_sort (merged : Dict) :
    (orderedPairs merged).Perm merged
    ∧ (orderedPairs merged).Pairwise
        (fun a b => a.2.index.getD 0 ≤ b.2.index.getD 0)
    ∧ ∀ c : Option Int,
        (orderedPairs merged).filter (fun kv => decide (kv.2.index = c))
          = merged.filter (fun kv => decide (kv.2.index = c)) := by
  refine ⟨stableSortBy_perm _ _, ?_, ?_⟩
  · refine (stableSortBy_pairwise ltIndexPair ?_ ?_ merged).imp ?_
    · intro a b hab
      simp only [ltIndexPair, decide_eq_true_eq] at hab
      simp only [ltIndexPair, decide_eq_false_iff_not]
      omega
    · intro a b c hba hcb
      simp only [ltIndexPair, decide_eq_false_iff_not] at hba hcb ⊢
      omega
    · intro a b h
      simp only [ltIndexPair, decide_eq_false_iff_not] at h
      omega
  · intro c
    apply stableSortBy_filter
    intro a b ha hb
    simp only [decide_eq_true_eq] at ha hb
    simp [ltIndexPair, ha, hb]

/-! ### C1: idempotence -/

/-- The counterexample to C1 as claimed: a local-only item at index 0 next
to a one-entry remote listing.  The first pass succeeds with every
materialization and write-back performed; on the second pass the remote
item's stored index (1, from the reindexing walk) differs from its remote
enumerate index (0), so `update` dirties its index flag and a write-back
(tag rewrite) is performed again — not zero dirty flags, not zero
write-backs. -/
theorem c1_counterexample :
    c1pass1Ok = true
    ∧ c1pass2WriteBacks = some [false, true]
    ∧ c1pass2IndexFlags = some [false, true] :=
  ⟨rfl, rfl, rfl⟩

/-! ### C4: non-deletion -/

/-- Writing a different key preserves membership of an entry. -/
theorem mem_alistSet_of_ne {α : Type} (d : List (String × α)) (k : String) (v : α)
    (kv : String × α) (hne : kv.1 ≠ k) (h : kv ∈ d) : kv ∈ alistSet d k v := by
  induction d with
  | nil => cases h
  | cons hd tl ih =>
    simp only [alistSet]
    split
    · next heq =>
      rcases List.mem_cons.mp h with hq | hq
      · subst hq
        exact absurd heq hne
      · exact List.mem_cons_of_mem _ hq
    · rcases List.mem_cons.mp h with hq | hq
      · exact hq ▸ List.mem_cons_self _ _
      · exact List.mem_cons_of_mem _ (ih hq)

/-- An entry whose key the remote dict never mentions survives the merge
loop untouched. -/
theorem syncMerge_mem_untouched (remoteD : Dict) (localD : Dict) (kv : String × Video)
    (h : kv ∈ localD) (habs : kv.1 ∉ remoteD.map Prod.fst) :
    kv ∈ syncMerge localD remoteD := by
  induction remoteD generalizing localD with
  | nil => exact h
  | cons r rest ih =>
    simp only [List.map_cons, List.mem_cons, not_or] at habs
    obtain ⟨hne, habs2⟩ := habs
    simp only [syncMerge, List.foldl_cons]
    cases hfind : alistFind localD r.1 with
    | some cur =>
      exact ih (alistSet localD r.1 (cur.update r.2)) (mem_alistSet_of_ne _ _ _ _ hne h) habs2
    | none =>
      exact ih (alistSet localD r.1 r.2) (mem_alistSet_of_ne _ _ _ _ hne h) habs2

/-- Every input entry reappears in the walk output under its key, either
unchanged or passed through a single `set_index`. -/
theorem assignFrom_mem (l : List (String × Video)) (i : Nat) (kv : String × Video)
    (h : kv ∈ l) :
    ∃ w, (kv.1, w) ∈ assignFrom i l
      ∧ (w = kv.2 ∨ ∃ x, w = kv.2.set_index x) := by
  induction l generalizing i with
  | nil => cases h
  | cons hd tl ih =>
    rcases List.mem_cons.mp h with hq | hq
    · subst hq
      refine ⟨if some (Int.ofNat i) ≠ kv.2.index then kv.2.set_index (some (Int.ofNat i))
          else kv.2, ?_, ?_⟩
      · exact List.mem_cons_self _ _
      · split
        · exact Or.inr ⟨some (Int.ofNat i), rfl⟩
        · exact Or.inl rfl
    · obtain ⟨w, hw, hsh⟩ := ih i.succ hq
      exact ⟨w, List.mem_cons_of_mem _ hw, hsh⟩

/-- C4: an id present only in the local input set is retained by
reconciliation; its local path and every field (and every flag) other than
the index and the index flag are unchanged. -/
theorem c4_non_deletion (localD remoteD : Dict) (kv : String × Video)
    (hmem : kv ∈ localD) (habs : kv.1 ∉ remoteD.map Prod.fst) :
    ∃ w, (kv.1, w) ∈ reconcile localD remoteD
      ∧ w.title = kv.2.title ∧ w.channel = kv.2.channel ∧ w.thumbnail = kv.2.thumbnail
      ∧ w.album_artist = kv.2.album_artist ∧ w.filepath = kv.2.filepath
      ∧ w.id = kv.2.id ∧ w.playlist = kv.2.playlist ∧ w.format = kv.2.format
      ∧ w.u_title = kv.2.u_title ∧ w.u_channel = kv.2.u_channel
      ∧ w.u_thumbnail = kv.2.u_thumbnail ∧ w.u_album_artist = kv.2.u_album_artist
      ∧ w.initial_save = kv.2.initial_save := by
  have h1 : kv ∈ syncMerge localD remoteD := syncMerge_mem_untouched remoteD localD kv hmem habs
  have h2 : kv ∈ orderedPairs (syncMerge localD remoteD) :=
    ((stableSortBy_perm _ _).mem_iff).mpr h1
  obtain ⟨w, hw, hsh⟩ := assignFrom_mem _ 0 kv h2
  refine ⟨w, hw, ?_⟩
  rcases hsh with rfl | ⟨x, rfl⟩
  · exact ⟨rfl, rfl, rfl, rfl, rfl, rfl, rfl, rfl, rfl, rfl, rfl, rfl, rfl⟩
  · unfold Video.set_index
    split <;> simp

/-- Witness for C4: a single local-only item against an empty remote set. -/
theorem c4_non_deletion_witness :
    ∃ w, (("b", c7vb) : String × Video).1 = "b" ∧ (("b", c7vb).1, w) ∈ reconcile [("b", c7vb)] []
      ∧ w.title = c7vb.title ∧ w.filepath = c7vb.filepath ∧ w.id = c7vb.id := by
  obtain ⟨w, hw, hfields⟩ := c4_non_deletion [("b", c7vb)] [] ("b", c7vb)
    (List.mem_cons_self _ _) (by simp)
  exact ⟨w, rfl, hw, hfields.1, hfields.2.2.2.2.1, hfields.2.2.2.2.2.1⟩

/-! ### Field bookkeeping for update, matchesFile, and save_metadata -/

/-- The effect of one `update` on every attribute (shared helper): the five
tracked fields end at the incoming values, everything else is untouched. -/
theorem Video.update_spec (v w : Video) :
    (v.update w).title = w.title ∧ (v.update w).channel = w.channel
    ∧ (v.update w).thumbnail = w.thumbnail ∧ (v.update w).index = w.index
    ∧ (v.update w).album_artist = w.album_artist
    ∧ (v.update w).id = v.id ∧ (v.update w).filepath = v.filepath
    ∧ (v.update w).playlist = v.playlist ∧ (v.update w).format = v.format
    ∧ (v.update w).initial_save = v.initial_save := by
  unfold Video.update Video.set_title Video.set_channel Video.set_thumbnail Video.set_index
    Video.set_album_artist
  split_ifs <;> simp_all

/-- `update` with an incoming descriptor that agrees on all five tracked
fields leaves the item untouched (flags included). -/
theorem Video.update_self (v w : Video) (ht : w.title = v.title) (hc : w.channel = v.channel)
    (hth : w.thumbnail = v.thumbnail) (hi : w.index = v.index)
    (ha : w.album_artist = v.album_artist) : v.update w = v := by
  unfold Video.update Video.set_title Video.set_channel Video.set_thumbnail Video.set_index
    Video.set_album_artist
  simp [ht, hc, hth, hi, ha]

/-- A freshly parsed local mp3 item matches its file's tags. -/
theorem matchesFile_ofFile (p : String) (t : Tags) (h : extOf p = "mp3") :
    (LocalVideo.ofFile p t).matchesFile t := by
  unfold LocalVideo.ofFile Video.matchesFile
  rw [if_pos h]
  exact ⟨fun _ => rfl, fun _ => rfl, fun _ => rfl, fun _ => rfl, fun _ => rfl, rfl, rfl⟩

/-- The setters preserve the file invariant: a field changes only together
with its dirty flag. -/
theorem matchesFile_update (v w : Video) (t : Tags) (h : v.matchesFile t) :
    (v.update w).matchesFile t := by
  obtain ⟨h1, h2, h3, h4, h5, h6, h7⟩ := h
  unfold Video.matchesFile
  unfold Video.update Video.set_title Video.set_channel Video.set_thumbnail Video.set_index
    Video.set_album_artist
  split_ifs <;> simp_all

/-- When no flag (and no initial save) is set, a matching file already holds
exactly the item's fields. -/
theorem matchesFile_no_writeback (v : Video) (t : Tags) (h : v.matchesFile t)
    (hw : v.doesWriteBack = false) : t = tagsFromVideo v := by
  obtain ⟨h1, h2, h3, h4, h5, h6, h7⟩ := h
  simp only [Video.doesWriteBack, Bool.or_eq_false_iff] at hw
  obtain ⟨⟨⟨⟨⟨hinit, hut⟩, huc⟩, huth⟩, hui⟩, hua⟩ := hw
  rcases t with ⟨tt, ta, tal, taa, ttn, tyid, tth⟩
  simp only [tagsFromVideo, Tags.mk.injEq]
  exact ⟨h1 hut, h2 huc, h6, h5 hua, h4 hui, h7, h3 huth⟩

/-- On a matching mp3 file, `save_metadata` leaves exactly the item's
fields in the tags, whether or not each flag fired. -/
theorem save_metadata_matches (v : Video) (t : Tags) (h : v.matchesFile t)
    (hf : v.format = 0) : v.save_metadata t = tagsFromVideo v := by
  obtain ⟨h1, h2, h3, h4, h5, h6, h7⟩ := h
  unfold Video.save_metadata tagsFromVideo
  rw [if_pos hf]
  simp only [Tags.mk.injEq]
  refine ⟨?_, ?_, ?_, ?_, ?_, ?_, ?_⟩ <;> split_ifs <;> simp_all [Bool.or_eq_false_iff]

/-! ### Association-list bookkeeping -/

/-- Lookup of a present key under distinct keys returns the unique entry. -/
theorem alistFind_eq_some_of_mem_nodup {α : Type} (d : List (String × α)) (k : String)
    (v : α) (hnd : (d.map Prod.fst).Nodup) (h : (k, v) ∈ d) : alistFind d k = some v := by
  induction d with
  | nil => cases h
  | cons hd tl ih =>
    simp only [List.map_cons, List.nodup_cons] at hnd
    obtain ⟨hnotin, hnd2⟩ := hnd
    rcases List.mem_cons.mp h with hq | hq
    · rw [← hq]
      simp [alistFind]
    · have hkey : k ∈ tl.map Prod.fst := List.mem_map_of_mem Prod.fst hq
      have hne : hd.1 ≠ k := fun he => hnotin (he ▸ hkey)
      simp only [alistFind, if_neg hne]
      exact ih hnd2 hq

/-- Writing back the value a key already holds is a no-op. -/
theorem alistSet_find_self {α : Type} (d : List (String × α)) (k : String) (v : α)
    (h : alistFind d k = some v) : alistSet d k v = d := by
  induction d with
  | nil => simp [alistFind] at h
  | cons hd tl ih =>
    simp only [alistFind] at h
    simp only [alistSet]
    split
    · next heq =>
      rw [if_pos heq] at h
      have hv : hd.2 = v := by
        injection h with h2
      rcases hd with ⟨k1, v1⟩
      simp only at heq hv
      rw [heq, hv]
    · next hne =>
      rw [if_neg hne] at h
      rw [ih h]

/-- A present key has some lookup result. -/
theorem alistFind_isSome_of_mem {α : Type} (d : List (String × α)) (k : String)
    (h : k ∈ d.map Prod.fst) : ∃ v, alistFind d k = some v := by
  induction d with
  | nil => simp at h
  | cons hd tl ih =>
    by_cases hk : hd.1 = k
    · exact ⟨hd.2, by simp [alistFind, hk]⟩
    · simp only [List.map_cons, List.mem_cons] at h
      rcases h with hq | hq
      · exact absurd hq.symm hk
      · obtain ⟨v, hv⟩ := ih hq
        exact ⟨v, by simp [alistFind, hk, hv]⟩

/-- Looking up a key that is in neither part of a left prefix skips it. -/
theorem alistFind_append_right {α : Type} (A B : List (String × α)) (k : String)
    (h : k ∉ A.map Prod.fst) : alistFind (A ++ B) k = alistFind B k := by
  induction A with
  | nil => rfl
  | cons hd tl ih =>
    simp only [List.map_cons, List.mem_cons, not_or] at h
    obtain ⟨hne, h2⟩ := h
    simp only [List.cons_append, alistFind, if_neg (Ne.symm hne)]
    exact ih h2

/-- Writing a key that lives past a prefix leaves the prefix alone. -/
theorem alistSet_append_right {α : Type} (A B : List (String × α)) (k : String) (v : α)
    (h : k ∉ A.map Prod.fst) : alistSet (A ++ B) k v = A ++ alistSet B k v := by
  induction A with
  | nil => rfl
  | cons hd tl ih =>
    simp only [List.map_cons, List.mem_cons, not_or] at h
    obtain ⟨hne, h2⟩ := h
    simp only [List.cons_append, alistSet, if_neg (Ne.symm hne)]
    exact congrArg (List.cons hd) (ih h2)

/-- Writing an absent key appends the entry. -/
theorem alistSet_append_of_not_mem {α : Type} (d : List (String × α)) (k : String) (v : α)
    (h : k ∉ d.map Prod.fst) : alistSet d k v = d ++ [(k, v)] := by
  induction d with
  | nil => rfl
  | cons hd tl ih =>
    simp only [List.map_cons, List.mem_cons, not_or] at h
    obtain ⟨hne, h2⟩ := h
    simp only [alistSet, if_neg (Ne.symm hne), List.cons_append]
    rw [ih h2]

/-- Under distinct keys, writing a present key rewrites exactly its entry. -/
theorem alistSet_eq_map {α : Type} (d : List (String × α)) (k : String) (v : α)
    (hnd : (d.map Prod.fst).Nodup) (h : k ∈ d.map Prod.fst) :
    alistSet d k v = d.map (fun kv => if kv.1 = k then (k, v) else kv) := by
  induction d with
  | nil => simp at h
  | cons hd tl ih =>
    simp only [List.map_cons, List.nodup_cons] at hnd
    obtain ⟨hnotin, hnd2⟩ := hnd
    simp only [alistSet, List.map_cons]
    by_cases hk : hd.1 = k
    · rw [if_pos hk, if_pos hk]
      have hpt : ∀ kv ∈ tl, (if kv.1 = k then (k, v) else kv) = id kv := by
        intro kv hkv
        have hne : kv.1 ≠ k := fun he => hnotin (hk ▸ he ▸ List.mem_map_of_mem Prod.fst hkv)
        rw [if_neg hne]
        rfl
      have hmap : tl.map (fun kv => if kv.1 = k then (k, v) else kv) = tl.map id :=
        List.map_congr_left hpt
      rw [hmap, List.map_id]
    · rw [if_neg hk, if_neg hk]
      simp only [List.map_cons] at h
      rcases List.mem_cons.mp h with hq | hq
      · exact absurd hq.symm hk
      · rw [ih hnd2 hq]

/-- Writing a present key preserves the key sequence. -/
theorem alistSet_map_fst {α : Type} (d : List (String × α)) (k : String) (v : α)
    (hnd : (d.map Prod.fst).Nodup) (h : k ∈ d.map Prod.fst) :
    (alistSet d k v).map Prod.fst = d.map Prod.fst := by
  rw [alistSet_eq_map d k v hnd h, List.map_map]
  apply List.map_congr_left
  intro kv _
  by_cases hk : kv.1 = k
  · simp [Function.comp, hk]
  · simp [Function.comp, hk]

/-- A dict built from values with distinct keys is the paired list. -/
theorem buildDict_go {α : Type} (key : α → String) (vs : List α) :
    ∀ acc : List (String × α), (vs.map key).Nodup →
      (∀ v ∈ vs, key v ∉ acc.map Prod.fst) →
      vs.foldl (fun a v => alistSet a (key v) v) acc = acc ++ vs.map (fun v => (key v, v)) := by
  induction vs with
  | nil =>
    intro acc _ _
    simp
  | cons v rest ih =>
    intro acc hnd hdis
    simp only [List.map_cons, List.nodup_cons] at hnd
    obtain ⟨hnotin, hnd2⟩ := hnd
    simp only [List.foldl_cons]
    rw [alistSet_append_of_not_mem acc (key v) v (hdis v (List.mem_cons_self _ _))]
    have hdis2 : ∀ w ∈ rest, key w ∉ (acc ++ [(key v, v)]).map Prod.fst := by
      intro w hw
      simp only [List.map_append, List.mem_append, not_or]
      refine ⟨hdis w (List.mem_cons_of_mem _ hw), ?_⟩
      simp only [List.map_cons, List.map_nil, List.mem_singleton]
      exact fun he => hnotin (he ▸ List.mem_map_of_mem key hw)
    rw [ih (acc ++ [(key v, v)]) hnd2 hdis2]
    simp

/-- Re-writing entries that are already present (under distinct keys) is a
fold of no-ops. -/
theorem foldl_alistSet_self (d : Dict) (pairs : List (String × Video))
    (hnd : (d.map Prod.fst).Nodup) (hsub : ∀ kv ∈ pairs, kv ∈ d) :
    pairs.foldl (fun acc kv => alistSet acc kv.1 kv.2) d = d := by
  induction pairs with
  | nil => rfl
  | cons kv rest ih =>
    simp only [List.foldl_cons]
    have hfind : alistFind d kv.1 = some kv.2 :=
      alistFind_eq_some_of_mem_nodup d kv.1 kv.2 hnd (hsub kv (List.mem_cons_self _ _))
    rw [show alistSet d kv.1 kv.2 = d from alistSet_find_self d kv.1 kv.2 hfind]
    exact ih (fun x hx => hsub x (List.mem_cons_of_mem _ hx))

/-- Looking up an absent key yields nothing. -/
theorem alistFind_eq_none_of_not_mem {α : Type} (d : List (String × α)) (k : String)
    (h : k ∉ d.map Prod.fst) : alistFind d k = none := by
  induction d with
  | nil => rfl
  | cons hd tl ih =>
    simp only [List.map_cons, List.mem_cons, not_or] at h
    obtain ⟨hne, h2⟩ := h
    simp only [alistFind, if_neg (Ne.symm hne)]
    exact ih h2

/-! ### Merge characterization -/

/-- When every remote key is already a local key and keys are distinct on
both sides, the merge loop rewrites each local entry by one `update` with
the remote value stored under its key, keeping the dict's shape and order. -/
theorem syncMerge_eq_map (r : Dict) :
    ∀ d : Dict, (d.map Prod.fst).Nodup → (r.map Prod.fst).Nodup →
      (∀ k ∈ r.map Prod.fst, k ∈ d.map Prod.fst) →
      syncMerge d r = d.map (fun kv =>
        match alistFind r kv.1 with
        | some w => (kv.1, kv.2.update w)
        | none => kv) := by
  induction r with
  | nil =>
    intro d _ _ _
    have hpt : ∀ kv ∈ d, (match alistFind ([] : Dict) kv.1 with
        | some w => (kv.1, kv.2.update w)
        | none => kv) = id kv := fun kv _ => rfl
    rw [List.map_congr_left hpt, List.map_id]
    rfl
  | cons rhd rtl ih =>
    intro d hdnd hrnd hsub
    simp only [List.map_cons, List.nodup_cons] at hrnd
    obtain ⟨hknotin, hrnd2⟩ := hrnd
    have hk0 : rhd.1 ∈ d.map Prod.fst := hsub rhd.1 (by simp)
    obtain ⟨v0, hv0⟩ := alistFind_isSome_of_mem d rhd.1 hk0
    have hstep : syncMerge d (rhd :: rtl)
        = syncMerge (alistSet d rhd.1 (v0.update rhd.2)) rtl := by
      simp only [syncMerge, List.foldl_cons, hv0]
    rw [hstep]
    have hkeys2 : (alistSet d rhd.1 (v0.update rhd.2)).map Prod.fst = d.map Prod.fst :=
      alistSet_map_fst d rhd.1 (v0.update rhd.2) hdnd hk0
    rw [ih (alistSet d rhd.1 (v0.update rhd.2)) (hkeys2 ▸ hdnd) hrnd2
      (fun k hk => hkeys2 ▸ hsub k (List.mem_cons_of_mem _ hk))]
    rw [alistSet_eq_map d rhd.1 (v0.update rhd.2) hdnd hk0, List.map_map]
    apply List.map_congr_left
    intro kv hkv
    simp only [Function.comp_apply]
    by_cases hc : kv.1 = rhd.1
    · have hfindd : alistFind d kv.1 = some kv.2 :=
        alistFind_eq_some_of_mem_nodup d kv.1 kv.2 hdnd hkv
      have hv0eq : kv.2 = v0 := by
        rw [hc] at hfindd
        rw [hfindd] at hv0
        injection hv0
      have hfindtl : alistFind rtl rhd.1 = none := alistFind_eq_none_of_not_mem rtl rhd.1 hknotin
      rw [if_pos hc]
      simp only [alistFind, if_pos hc.symm]
      simp only [hfindtl]
      rw [hc, hv0eq]
    · rw [if_neg hc]
      have hne : rhd.1 ≠ kv.1 := fun he => hc he.symm
      simp only [alistFind, if_neg hne]

/-! ### Remote state characterization -/

/-- On a nonempty thumbnail list, `selectThumb` returns the head url of the
descending stable sort. -/
theorem selectThumb_good (ts : List Thumb) (h : ts ≠ []) :
    selectThumb ts = Except.ok (thumbHead ts) := by
  unfold selectThumb thumbHead
  cases hs : stableSortBy (fun a b => decide (b.height < a.height)) ts with
  | nil =>
    have hp := stableSortBy_perm (fun a b => decide (b.height < a.height)) ts
    rw [hs] at hp
    exact absurd hp.nil_eq.symm h
  | cons t rest => rfl

/-- On a good entry the constructor succeeds with the explicit item. -/
theorem ofEntry_good (e : RemoteEntry) (i : Nat) (T aa : Option String) (h : goodEntry e) :
    YoutubeVideo.ofEntry e i T aa = Except.ok (videoOfEntryP e i T aa) := by
  obtain ⟨ht, hid, hc, hth⟩ := h
  obtain ⟨t, ht⟩ := Option.isSome_iff_exists.mp ht
  obtain ⟨idv, hid⟩ := Option.isSome_iff_exists.mp hid
  obtain ⟨c, hc⟩ := Option.isSome_iff_exists.mp hc
  unfold YoutubeVideo.ofEntry pySubscript videoOfEntryP
  rw [ht, hid, hc, selectThumb_good e.thumbnails hth]
  rfl

/-- The comprehension over good entries succeeds with the explicit list. -/
theorem buildVideos_good (T aa : Option String) (es : List RemoteEntry)
    (h : ∀ e ∈ es, goodEntry e) :
    ∀ i, buildVideos T aa i es = Except.ok (remoteVideos T aa i es) := by
  induction es with
  | nil =>
    intro i
    rfl
  | cons e rest ih =>
    intro i
    simp only [buildVideos, remoteVideos,
      ofEntry_good e i T aa (h e (List.mem_cons_self _ _)),
      ih (fun x hx => h x (List.mem_cons_of_mem _ hx)) (i + 1)]
    rfl

/-- The constructed videos carry the entry ids as their dict keys. -/
theorem remoteVideos_map_key (T aa : Option String) (es : List RemoteEntry) :
    ∀ i, (remoteVideos T aa i es).map (fun v => v.id.getD "")
      = es.map (fun e => e.id.getD "") := by
  induction es with
  | nil =>
    intro i
    rfl
  | cons e rest ih =>
    intro i
    simp only [remoteVideos, List.map_cons, ih (i + 1)]
    rfl

/-- The constructed videos carry the enumerate positions as indices. -/
theorem remoteVideos_map_index (T aa : Option String) (es : List RemoteEntry) :
    ∀ i, (remoteVideos T aa i es).map Video.index
      = (List.range es.length).map (fun j => some (Int.ofNat (i + j))) := by
  induction es with
  | nil =>
    intro i
    rfl
  | cons e rest ih =>
    intro i
    simp only [remoteVideos, List.map_cons, List.length_cons, List.range_succ_eq_map,
      List.map_map, ih (i + 1)]
    congr 1
    apply List.map_congr_left
    intro j _
    simp only [Function.comp_apply]
    congr 2
    omega

/-- On all-good entries with distinct ids, the remote fetch returns the
explicit remote dict and the threaded album artist. -/
theorem get_remote_state_good (T : Option String) (es : List RemoteEntry)
    (aa0 : Option String) (hgood : ∀ e ∈ es, goodEntry e)
    (hrnd : (es.map (fun e => e.id.getD "")).Nodup) :
    Playlist.get_remote_state (FetchResult.parsed { title := T, entries := es }) aa0
      = Except.ok (some (remoteDictOf es T (remoteAA es aa0)), remoteAA es aa0) := by
  have hvsnd : ((remoteVideos T (remoteAA es aa0) 0 es).map (fun v => v.id.getD "")).Nodup := by
    rw [remoteVideos_map_key T (remoteAA es aa0) es 0]
    exact hrnd
  unfold Playlist.get_remote_state
  simp only [remoteAA] at *
  rw [buildVideos_good T (es.foldl (fun s e => Playlist.add_album_artist s e.channel) aa0) es
    hgood 0]
  have hd := buildDict_go (fun v => v.id.getD "")
    (remoteVideos T (es.foldl (fun s e => Playlist.add_album_artist s e.channel) aa0) 0 es) []
    hvsnd (by simp)
  simp only [List.nil_append] at hd
  show Except.ok
      (some ((remoteVideos T (es.foldl (fun s e => Playlist.add_album_artist s e.channel) aa0)
          0 es).foldl (fun acc v => alistSet acc (v.id.getD "") v) []),
        es.foldl (fun s e => Playlist.add_album_artist s e.channel) aa0)
    = Except.ok
        (some (remoteDictOf es T (es.foldl (fun s e => Playlist.add_album_artist s e.channel) aa0)),
          es.foldl (fun s e => Playlist.add_album_artist s e.channel) aa0)
  rw [hd]
  rfl

/-! ### Local scan characterization -/

/-- `LocalVideo.__init__` on an mp3 path: the explicit parsed item. -/
theorem ofFile_mp3 (p : String) (t : Tags) (h : extOf p = "mp3") :
    LocalVideo.ofFile p t
      = { Video.init with
          title := t.title, channel := t.artist, album_artist := t.album_artist,
          index := t.track_num, filepath := some p, format := 0,
          playlist := t.album, id := t.youtube_id, thumbnail := t.thumbnail_url } := by
  unfold LocalVideo.ofFile
  rw [if_pos h]

/-- The local scan over all-mp3 files with distinct truthy ids builds the
parallel dict and folds the artists. -/
theorem get_local_state_go (fs : FileSystem) :
    ∀ acc : Dict × Option String,
      (∀ pt ∈ fs, extOf pt.1 = "mp3") →
      (∀ pt ∈ fs, truthy pt.2.youtube_id = true) →
      (fs.map localKeyOf).Nodup →
      (∀ pt ∈ fs, localKeyOf pt ∉ acc.1.map Prod.fst) →
      fs.foldl
        (fun acc ft =>
          if extOf ft.1 = "mp3" ∨ extOf ft.1 = "pm4" then
            let f := LocalVideo.ofFile ft.1 ft.2
            if truthy f.id then
              (alistSet acc.1 (f.id.getD "") f, Playlist.add_album_artist acc.2 f.channel)
            else acc
          else acc) acc
      = (acc.1 ++ fs.map (fun pt => (localKeyOf pt, LocalVideo.ofFile pt.1 pt.2)),
          localAA fs acc.2) := by
  induction fs with
  | nil =>
    intro acc _ _ _ _
    simp [localAA]
  | cons pt rest ih =>
    intro acc hext htr hnd hdis
    simp only [List.map_cons, List.nodup_cons] at hnd
    obtain ⟨hknotin, hnd2⟩ := hnd
    have hmp3 := hext pt (List.mem_cons_self _ _)
    have hid : (LocalVideo.ofFile pt.1 pt.2).id = pt.2.youtube_id := by
      rw [ofFile_mp3 _ _ hmp3]
    have hch : (LocalVideo.ofFile pt.1 pt.2).channel = pt.2.artist := by
      rw [ofFile_mp3 _ _ hmp3]
    simp only [List.foldl_cons]
    rw [if_pos (Or.inl hmp3)]
    simp only [hid]
    rw [if_pos (htr pt (List.mem_cons_self _ _))]
    rw [alistSet_append_of_not_mem acc.1 (pt.2.youtube_id.getD "") (LocalVideo.ofFile pt.1 pt.2)
      (hdis pt (List.mem_cons_self _ _))]
    have hdis2 : ∀ q ∈ rest, localKeyOf q
        ∉ (acc.1 ++ [(pt.2.youtube_id.getD "", LocalVideo.ofFile pt.1 pt.2)]).map Prod.fst := by
      intro q hq
      simp only [List.map_append, List.mem_append, not_or, List.map_cons, List.map_nil,
        List.mem_singleton]
      refine ⟨hdis q (List.mem_cons_of_mem _ hq), ?_⟩
      intro he
      apply hknotin
      have hkq : localKeyOf pt = localKeyOf q := he.symm
      rw [hkq]
      exact List.mem_map_of_mem localKeyOf hq
    rw [ih (acc.1 ++ [(pt.2.youtube_id.getD "", LocalVideo.ofFile pt.1 pt.2)],
        Playlist.add_album_artist acc.2 (LocalVideo.ofFile pt.1 pt.2).channel)
      (fun q hq => hext q (List.mem_cons_of_mem _ hq))
      (fun q hq => htr q (List.mem_cons_of_mem _ hq)) hnd2 hdis2]
    simp only [List.append_assoc, List.singleton_append, List.map_cons]
    rw [hch]
    rfl

/-- `get_local_state` on a directory of mp3 files with distinct truthy
ids: the parallel dict, with the artists folded into `album_artists`. -/
theorem get_local_state_good (fs : FileSystem)
    (hext : ∀ pt ∈ fs, extOf pt.1 = "mp3")
    (htr : ∀ pt ∈ fs, truthy pt.2.youtube_id = true)
    (hnd : (fs.map localKeyOf).Nodup) :
    Playlist.get_local_state fs none
      = (fs.map (fun pt => (localKeyOf pt, LocalVideo.ofFile pt.1 pt.2)), localAA fs none) := by
  unfold Playlist.get_local_state
  rw [get_local_state_go fs ([], none) hext htr hnd (by simp)]
  simp

/-! ### The walk on a merged set whose indices are a permutation of 0..n-1 -/

/-- The ordered list is sorted by the index key (shared helper). -/
theorem orderedPairs_sorted (merged : Dict) :
    (orderedPairs merged).Pairwise (fun a b => a.2.index.getD 0 ≤ b.2.index.getD 0) := by
  refine (stableSortBy_pairwise ltIndexPair ?_ ?_ merged).imp ?_
  · intro a b hab
    simp only [ltIndexPair, decide_eq_true_eq] at hab
    simp only [ltIndexPair, decide_eq_false_iff_not]
    omega
  · intro a b c hba hcb
    simp only [ltIndexPair, decide_eq_false_iff_not] at hba hcb ⊢
    omega
  · intro a b h
    simp only [ltIndexPair, decide_eq_false_iff_not] at h
    omega

/-- Sorting a merged set whose indices are exactly a permutation of
{0..m-1} lines the indices up in increasing order. -/
theorem orderedPairs_index_eq (merged : Dict) (m : Nat)
    (hperm : (merged.map (fun kv => kv.2.index)).Perm
      ((List.range m).map (fun j => some (Int.ofNat j)))) :
    (orderedPairs merged).map (fun kv => kv.2.index)
      = (List.range m).map (fun j => some (Int.ofNat j)) := by
  have hperm2 : ((orderedPairs merged).map (fun kv => kv.2.index)).Perm
      ((List.range m).map (fun j => some (Int.ofNat j))) :=
    ((stableSortBy_perm ltIndexPair merged).map _).trans hperm
  have hsome : ∀ kv ∈ orderedPairs merged, kv.2.index.isSome = true := by
    intro kv hkv
    have hm : kv.2.index ∈ (List.range m).map (fun j => some (Int.ofNat j)) :=
      hperm2.mem_iff.mp (List.mem_map_of_mem (fun kv => kv.2.index) hkv)
    obtain ⟨j, _, hj⟩ := List.mem_map.mp hm
    rw [← hj]
    rfl
  have hG : ((orderedPairs merged).map (fun kv => kv.2.index.getD 0)).Perm
      ((List.range m).map (fun j => Int.ofNat j)) := by
    have h1 := hperm2.map (fun o : Option Int => o.getD 0)
    simp only [List.map_map] at h1
    have h2 : ((List.range m).map
        ((fun o : Option Int => o.getD 0) ∘ (fun j => some (Int.ofNat j))))
        = (List.range m).map (fun j => Int.ofNat j) := by
      apply List.map_congr_left
      intro j _
      rfl
    rw [h2] at h1
    exact h1
  have hsorted1 : ((orderedPairs merged).map (fun kv => kv.2.index.getD 0)).Pairwise (· ≤ ·) :=
    (List.pairwise_map).mpr (orderedPairs_sorted merged)
  have hsorted2 : ((List.range m).map (fun j => Int.ofNat j)).Pairwise (· ≤ ·) := by
    refine List.Pairwise.map _ ?_ (List.pairwise_lt_range m)
    intro a b hab
    exact Int.ofNat_le.mpr (Nat.le_of_lt hab)
  have heq : (orderedPairs merged).map (fun kv => kv.2.index.getD 0)
      = (List.range m).map (fun j => Int.ofNat j) :=
    List.eq_of_perm_of_sorted hG hsorted1 hsorted2
  calc (orderedPairs merged).map (fun kv => kv.2.index)
      = (orderedPairs merged).map (fun kv => some (kv.2.index.getD 0)) := by
        apply List.map_congr_left
        intro kv hkv
        have hs := hsome kv hkv
        cases hidx : kv.2.index with
        | none => rw [hidx] at hs; cases hs
        | some x => rfl
    _ = ((orderedPairs merged).map (fun kv => kv.2.index.getD 0)).map some := by
        rw [List.map_map]; rfl
    _ = ((List.range m).map (fun j => Int.ofNat j)).map some := by rw [heq]
    _ = (List.range m).map (fun j => some (Int.ofNat j)) := by rw [List.map_map]; rfl

/-- The reindexing walk fires nowhere when every item already sits at its
position. -/
theorem assignFrom_id (l : List (String × Video)) :
    ∀ i, l.map (fun kv => kv.2.index)
        = (List.range l.length).map (fun j => some (Int.ofNat (i + j))) →
      assignFrom i l = l := by
  induction l with
  | nil =>
    intro i _
    rfl
  | cons hd tl ih =>
    intro i h
    simp only [List.map_cons, List.length_cons, List.range_succ_eq_map, List.map_map,
      List.cons.injEq] at h
    obtain ⟨h1, h2⟩ := h
    simp only [assignFrom]
    have hne : ¬(some (Int.ofNat i) ≠ hd.2.index) := by
      rw [h1]
      simp
    rw [if_neg hne]
    have h2i : tl.map (fun kv => kv.2.index)
        = (List.range tl.length).map (fun j => some (Int.ofNat (i + 1 + j))) := by
      rw [h2]
      apply List.map_congr_left
      intro j _
      simp only [Function.comp_apply]
      congr 2
      omega
    rw [ih (i + 1) h2i]

/-- On such a merged set the walk is the identity and writing the walked
entries back over their keys leaves the dict untouched. -/
theorem finalDict_id (merged : Dict) (m : Nat)
    (hperm : (merged.map (fun kv => kv.2.index)).Perm
      ((List.range m).map (fun j => some (Int.ofNat j))))
    (hnd : (merged.map Prod.fst).Nodup) :
    reindexPairs merged = orderedPairs merged ∧ finalDict merged = merged := by
  have hlen : (orderedPairs merged).length = merged.length :=
    (stableSortBy_perm ltIndexPair merged).length_eq
  have hmlen : merged.length = m := by
    have hL := hperm.length_eq
    simpa using hL
  have hidx := orderedPairs_index_eq merged m hperm
  have hwalk : assignFrom 0 (orderedPairs merged) = orderedPairs merged := by
    apply assignFrom_id _ 0
    rw [hidx, hlen, hmlen]
    apply List.map_congr_left
    intro j _
    simp
  refine ⟨hwalk, ?_⟩
  unfold finalDict
  rw [show reindexPairs merged = orderedPairs merged from hwalk]
  exact foldl_alistSet_self merged _ hnd
    (fun kv hkv => (stableSortBy_perm ltIndexPair merged).mem_iff.mp hkv)

/-! ### The write-back phase -/

/-- `Video.sync` on an already materialized item only writes metadata. -/
theorem syncApply_materialized (outDir : String) (v : Video) (fs : FileSystem) (p : String)
    (h : v.filepath = some p) :
    Video.syncApply outDir v fs = Except.ok (v.writeToFs p fs) := by
  simp only [Video.syncApply, h]
  show (match v.filepath with
    | some q => Except.ok (v.writeToFs q fs)
    | none => Except.ok fs) = Except.ok (v.writeToFs p fs)
  rw [h]

/-- On a matching mp3 file, the write-back (fired or skipped) leaves exactly
the item's fields in the file. -/
theorem writeToFs_eq (v : Video) (p : String) (fs : FileSystem) (t : Tags)
    (hfind : alistFind fs p = some t) (hm : v.matchesFile t) (hf : v.format = 0) :
    v.writeToFs p fs = alistSet fs p (tagsFromVideo v) := by
  unfold Video.writeToFs
  cases hw : v.doesWriteBack with
  | false =>
    rw [if_neg (by simp [hw])]
    rw [← matchesFile_no_writeback v t hm hw]
    exact (alistSet_find_self fs p t hfind).symm
  | true =>
    rw [if_pos (by simp [hw]), hfind]
    show alistSet fs p (v.save_metadata t) = alistSet fs p (tagsFromVideo v)
    rw [save_metadata_matches v t hm hf]

/-- The per-item write loop over files paired with matching materialized
items rewrites each file to its item's fields, in place. -/
theorem writeAll_parallel (outDir : String) (itemOf : (String × Tags) → Video)
    (keyOf : (String × Tags) → String) (fsrest : FileSystem) :
    ∀ done : FileSystem,
      (((done ++ fsrest).map Prod.fst).Nodup) →
      (∀ pt ∈ fsrest, (itemOf pt).filepath = some pt.1 ∧ (itemOf pt).format = 0
        ∧ (itemOf pt).matchesFile pt.2) →
      List.foldlM (fun a kv => Video.syncApply outDir kv.2 a)
          (done ++ fsrest) (fsrest.map (fun pt => (keyOf pt, itemOf pt)))
        = Except.ok (done ++ fsrest.map (fun pt => (pt.1, tagsFromVideo (itemOf pt)))) := by
  induction fsrest with
  | nil =>
    intro done _ _
    simp only [List.map_nil, List.foldlM_nil, List.append_nil]
    rfl
  | cons pt rest ih =>
    intro done hnd hitem
    obtain ⟨hfp, hfmt, hm⟩ := hitem pt (List.mem_cons_self _ _)
    have hdone : pt.1 ∉ done.map Prod.fst := by
      have hsplit := hnd
      simp only [List.map_append, List.map_cons] at hsplit
      intro hc
      exact (List.disjoint_of_nodup_append hsplit) hc (List.mem_cons_self _ _)
    have hfind : alistFind (done ++ pt :: rest) pt.1 = some pt.2 := by
      rw [alistFind_append_right done (pt :: rest) pt.1 hdone]
      simp [alistFind]
    have hset : alistSet (done ++ pt :: rest) pt.1 (tagsFromVideo (itemOf pt))
        = (done ++ [(pt.1, tagsFromVideo (itemOf pt))]) ++ rest := by
      rw [alistSet_append_right done (pt :: rest) pt.1 (tagsFromVideo (itemOf pt)) hdone]
      have hhd : alistSet (pt :: rest) pt.1 (tagsFromVideo (itemOf pt))
          = (pt.1, tagsFromVideo (itemOf pt)) :: rest := by
        simp [alistSet]
      rw [hhd]
      simp
    simp only [List.map_cons, List.foldlM_cons]
    rw [syncApply_materialized outDir (itemOf pt) (done ++ pt :: rest) pt.1 hfp]
    rw [writeToFs_eq (itemOf pt) pt.1 (done ++ pt :: rest) pt.2 hfind hm hfmt]
    rw [hset]
    have hnd2 : (((done ++ [(pt.1, tagsFromVideo (itemOf pt))]) ++ rest).map Prod.fst).Nodup := by
      have : ((done ++ [(pt.1, tagsFromVideo (itemOf pt))]) ++ rest).map Prod.fst
          = ((done ++ pt :: rest)).map Prod.fst := by
        simp
      rw [this]
      exact hnd
    have hres := ih (done ++ [(pt.1, tagsFromVideo (itemOf pt))]) hnd2
      (fun q hq => hitem q (List.mem_cons_of_mem _ hq))
    show List.foldlM (fun a kv => Video.syncApply outDir kv.2 a)
        ((done ++ [(pt.1, tagsFromVideo (itemOf pt))]) ++ rest)
        (rest.map (fun pt => (keyOf pt, itemOf pt)))
      = Except.ok (done ++ (pt.1, tagsFromVideo (itemOf pt))
          :: rest.map (fun pt => (pt.1, tagsFromVideo (itemOf pt))))
    rw [hres]
    simp

/-! ### One full pass of Playlist.sync under the idempotence hypotheses -/

/-- One full `Playlist.sync` pass over a directory of materialized mp3 files
whose distinct truthy ids coincide with the distinct ids of an all-good
remote listing: the run succeeds, every file is rewritten in place to its
merged item's fields, the merged dict is the file-parallel dict of
`passItem`s, and `album_artists` is the local-then-remote fold. -/
theorem pass_characterization (outDir : String) (fs : FileSystem) (T : Option String)
    (es : List RemoteEntry)
    (hnd : (fs.map Prod.fst).Nodup)
    (hext : ∀ pt ∈ fs, extOf pt.1 = "mp3")
    (htr : ∀ pt ∈ fs, truthy pt.2.youtube_id = true)
    (hidnd : (fs.map localKeyOf).Nodup)
    (hgood : ∀ e ∈ es, goodEntry e)
    (hrnd : (es.map (fun e => e.id.getD "")).Nodup)
    (hlsub : ∀ pt ∈ fs, localKeyOf pt ∈ es.map (fun e => e.id.getD ""))
    (hrsub : ∀ e ∈ es, e.id.getD "" ∈ fs.map localKeyOf) :
    Playlist.sync outDir fs (FetchResult.parsed { title := T, entries := es })
      = Except.ok
          { fs := fs.map (fun pt => (pt.1, tagsFromVideo (passItem es T (passAA fs es) pt))),
            items := fs.map (fun pt => (localKeyOf pt, passItem es T (passAA fs es) pt)),
            album_artists := passAA fs es } := by
  have hls := get_local_state_good fs hext htr hidnd
  have hrs := get_remote_state_good T es (localAA fs none) hgood hrnd
  have hlkeys : (fs.map (fun pt => (localKeyOf pt, LocalVideo.ofFile pt.1 pt.2))).map Prod.fst
      = fs.map localKeyOf := by
    rw [List.map_map]
    rfl
  have hrkeys : (remoteDictOf es T (passAA fs es)).map Prod.fst
      = es.map (fun e => e.id.getD "") := by
    unfold remoteDictOf
    rw [List.map_map]
    show (remoteVideos T (passAA fs es) 0 es).map
        (Prod.fst ∘ fun v => (v.id.getD "", v)) = es.map (fun e => e.id.getD "")
    have he : (remoteVideos T (passAA fs es) 0 es).map
        (Prod.fst ∘ fun v => (v.id.getD "", v))
        = (remoteVideos T (passAA fs es) 0 es).map (fun v => v.id.getD "") := by
      apply List.map_congr_left
      intro v _
      rfl
    rw [he]
    exact remoteVideos_map_key T (passAA fs es) es 0
  have hrndK : ((remoteDictOf es T (passAA fs es)).map Prod.fst).Nodup := by
    rw [hrkeys]
    exact hrnd
  have hmerge := syncMerge_eq_map (remoteDictOf es T (passAA fs es))
    (fs.map (fun pt => (localKeyOf pt, LocalVideo.ofFile pt.1 pt.2)))
    (by rw [hlkeys]; exact hidnd) hrndK
    (by
      rw [hlkeys, hrkeys]
      intro k hk
      obtain ⟨e, he, hkk⟩ := List.mem_map.mp hk
      rw [← hkk]
      exact hrsub e he)
  have hmergedForm : syncMerge (fs.map (fun pt => (localKeyOf pt, LocalVideo.ofFile pt.1 pt.2)))
        (remoteDictOf es T (passAA fs es))
      = fs.map (fun pt => (localKeyOf pt, passItem es T (passAA fs es) pt)) := by
    rw [hmerge, List.map_map]
    apply List.map_congr_left
    intro pt _
    simp only [Function.comp_apply, passItem]
    cases hf : alistFind (remoteDictOf es T (passAA fs es)) (localKeyOf pt) <;> rfl
  have hkperm : (fs.map localKeyOf).Perm (es.map (fun e => e.id.getD "")) := by
    apply List.perm_of_nodup_nodup_toFinset_eq hidnd hrnd
    ext k
    simp only [List.mem_toFinset]
    constructor
    · intro hk
      obtain ⟨pt, hpt, hkk⟩ := List.mem_map.mp hk
      rw [← hkk]
      exact hlsub pt hpt
    · intro hk
      obtain ⟨e, he, hkk⟩ := List.mem_map.mp hk
      rw [← hkk]
      exact hrsub e he
  have hidxperm : ((fs.map (fun pt => (localKeyOf pt, passItem es T (passAA fs es) pt))).map
        (fun kv => kv.2.index)).Perm
      ((List.range es.length).map (fun j => some (Int.ofNat j))) := by
    have hstep1 : (fs.map (fun pt => (localKeyOf pt, passItem es T (passAA fs es) pt))).map
          (fun kv => kv.2.index)
        = (fs.map localKeyOf).map (fun k =>
            match alistFind (remoteDictOf es T (passAA fs es)) k with
            | some w => w.index
            | none => none) := by
      rw [List.map_map, List.map_map]
      apply List.map_congr_left
      intro pt hpt
      simp only [Function.comp_apply]
      have hmem : localKeyOf pt ∈ (remoteDictOf es T (passAA fs es)).map Prod.fst := by
        rw [hrkeys]
        exact hlsub pt hpt
      obtain ⟨w, hw⟩ := alistFind_isSome_of_mem _ _ hmem
      simp only [passItem, hw]
      exact (Video.update_spec (LocalVideo.ofFile pt.1 pt.2) w).2.2.2.1
    have hstep2 : ((es.map (fun e => e.id.getD "")).map (fun k =>
            match alistFind (remoteDictOf es T (passAA fs es)) k with
            | some w => w.index
            | none => none))
        = (List.range es.length).map (fun j => some (Int.ofNat j)) := by
      rw [← hrkeys, List.map_map]
      have hpt : ∀ kv ∈ remoteDictOf es T (passAA fs es),
          ((fun k => match alistFind (remoteDictOf es T (passAA fs es)) k with
            | some w => w.index
            | none => none) ∘ Prod.fst) kv = kv.2.index := by
        intro kv hkv
        simp only [Function.comp_apply]
        rw [alistFind_eq_some_of_mem_nodup _ kv.1 kv.2 hrndK]
        rcases kv with ⟨k, v⟩
        exact hkv
      rw [List.map_congr_left hpt]
      unfold remoteDictOf
      rw [List.map_map]
      have he : (remoteVideos T (passAA fs es) 0 es).map
          ((fun kv : String × Video => kv.2.index) ∘ fun v => (v.id.getD "", v))
          = (remoteVideos T (passAA fs es) 0 es).map Video.index := by
        apply List.map_congr_left
        intro v _
        rfl
      rw [he, remoteVideos_map_index T (passAA fs es) es 0]
      apply List.map_congr_left
      intro j _
      simp
    rw [hstep1]
    rw [← hstep2]
    exact hkperm.map _
  have hfinal := finalDict_id (fs.map (fun pt => (localKeyOf pt, passItem es T (passAA fs es) pt)))
    es.length hidxperm
    (by
      have hk2 : (fs.map (fun pt => (localKeyOf pt, passItem es T (passAA fs es) pt))).map Prod.fst
          = fs.map localKeyOf := by
        rw [List.map_map]
        rfl
      rw [hk2]
      exact hidnd)
  have hwrite := writeAll_parallel outDir (passItem es T (passAA fs es)) localKeyOf fs []
    (by
      simp only [List.nil_append]
      exact hnd)
    (by
      intro pt hpt
      have hmp3 := hext pt hpt
      have hofp : (LocalVideo.ofFile pt.1 pt.2).filepath = some pt.1 := by
        rw [ofFile_mp3 _ _ hmp3]
      have hoff : (LocalVideo.ofFile pt.1 pt.2).format = 0 := by
        rw [ofFile_mp3 _ _ hmp3]
      have hofm : (LocalVideo.ofFile pt.1 pt.2).matchesFile pt.2 := matchesFile_ofFile _ _ hmp3
      unfold passItem
      cases hf : alistFind (remoteDictOf es T (passAA fs es)) (localKeyOf pt) with
      | some w =>
        refine ⟨?_, ?_, matchesFile_update _ w _ hofm⟩
        · rw [(Video.update_spec (LocalVideo.ofFile pt.1 pt.2) w).2.2.2.2.2.2.1]
          exact hofp
        · rw [(Video.update_spec (LocalVideo.ofFile pt.1 pt.2) w).2.2.2.2.2.2.2.2.1]
          exact hoff
      | none => exact ⟨hofp, hoff, hofm⟩)
  unfold Playlist.sync
  rw [hls]
  show (do
    let rs ← Playlist.get_remote_state
      (FetchResult.parsed { title := T, entries := es }) (localAA fs none)
    match rs.1 with
    | none => Except.error Err.attributeNoneItems
    | some remoteD => do
      let fs2 ← (finalDict (syncMerge
          (fs.map (fun pt => (localKeyOf pt, LocalVideo.ofFile pt.1 pt.2))) remoteD)).foldlM
        (fun a kv => Video.syncApply outDir kv.2 a) fs
      Except.ok
        ({ fs := fs2,
           items := finalDict (syncMerge
             (fs.map (fun pt => (localKeyOf pt, LocalVideo.ofFile pt.1 pt.2))) remoteD),
           album_artists := rs.2 } : SyncResult))
    = Except.ok
        { fs := fs.map (fun pt => (pt.1, tagsFromVideo (passItem es T (passAA fs es) pt))),
          items := fs.map (fun pt => (localKeyOf pt, passItem es T (passAA fs es) pt)),
          album_artists := passAA fs es }
  rw [hrs]
  show (do
    let fs2 ← (finalDict (syncMerge
        (fs.map (fun pt => (localKeyOf pt, LocalVideo.ofFile pt.1 pt.2)))
        (remoteDictOf es T (remoteAA es (localAA fs none))))).foldlM
      (fun a kv => Video.syncApply outDir kv.2 a) fs
    Except.ok
      ({ fs := fs2,
         items := finalDict (syncMerge
           (fs.map (fun pt => (localKeyOf pt, LocalVideo.ofFile pt.1 pt.2)))
           (remoteDictOf es T (remoteAA es (localAA fs none)))),
         album_artists := remoteAA es (localAA fs none) } : SyncResult))
    = Except.ok
        { fs := fs.map (fun pt => (pt.1, tagsFromVideo (passItem es T (passAA fs es) pt))),
          items := fs.map (fun pt => (localKeyOf pt, passItem es T (passAA fs es) pt)),
          album_artists := passAA fs es }
  rw [show remoteAA es (localAA fs none) = passAA fs es from rfl]
  rw [hmergedForm, hfinal.2]
  rw [show ((fs.map (fun pt => (localKeyOf pt, passItem es T (passAA fs es) pt))).foldlM
      (fun a kv => Video.syncApply outDir kv.2 a) fs)
    = ((fs.map (fun pt => (localKeyOf pt, passItem es T (passAA fs es) pt))).foldlM
      (fun a kv => Video.syncApply outDir kv.2 a) ([] ++ fs)) from rfl]
  rw [hwrite]
  rfl

/-- A successful lookup is a member. -/
theorem alistFind_mem {α : Type} (d : List (String × α)) (k : String) (v : α)
    (h : alistFind d k = some v) : (k, v) ∈ d := by
  induction d with
  | nil => simp [alistFind] at h
  | cons hd tl ih =>
    simp only [alistFind] at h
    split at h
    · next heq =>
      injection h with h2
      rw [← heq, ← h2]
      exact List.mem_cons_self _ _
    · exact List.mem_cons_of_mem _ (ih h)

/-- Every constructed remote video comes from one listing entry. -/
theorem remoteVideos_mem (T aa : Option String) (es : List RemoteEntry) :
    ∀ i v, v ∈ remoteVideos T aa i es → ∃ e ∈ es, ∃ j, v = videoOfEntryP e j T aa := by
  induction es with
  | nil =>
    intro i v hv
    cases hv
  | cons e rest ih =>
    intro i v hv
    rcases List.mem_cons.mp hv with hq | hq
    · exact ⟨e, List.mem_cons_self _ _, i, hq⟩
    · obtain ⟨e2, he2, j, hj⟩ := ih (i + 1) v hq
      exact ⟨e2, List.mem_cons_of_mem _ he2, j, hj⟩

/-- The remote item found under a key comes from an entry with that id. -/
theorem remoteDict_find_entry (es : List RemoteEntry) (T aa : Option String) (k : String)
    (w : Video) (h : alistFind (remoteDictOf es T aa) k = some w) :
    ∃ e ∈ es, ∃ j, w = videoOfEntryP e j T aa ∧ e.id.getD "" = k := by
  have hmem := alistFind_mem _ _ _ h
  unfold remoteDictOf at hmem
  obtain ⟨v, hv, hpair⟩ := List.mem_map.mp hmem
  obtain ⟨e, he, j, hj⟩ := remoteVideos_mem T aa es 0 v hv
  refine ⟨e, he, j, ?_, ?_⟩
  · have hw : v = w := congrArg Prod.snd hpair
    rw [← hw]
    exact hj
  · have hk : v.id.getD "" = k := congrArg Prod.fst hpair
    rw [← hk, hj]
    rfl

/-- A parsed local item has no dirty flag and no pending initial save. -/
theorem ofFile_clean (p : String) (t : Tags) :
    (LocalVideo.ofFile p t).doesWriteBack = false
    ∧ (LocalVideo.ofFile p t).u_title = false
    ∧ (LocalVideo.ofFile p t).u_channel = false
    ∧ (LocalVideo.ofFile p t).u_thumbnail = false
    ∧ (LocalVideo.ofFile p t).u_index = false
    ∧ (LocalVideo.ofFile p t).u_album_artist = false := by
  unfold LocalVideo.ofFile Video.doesWriteBack Video.init
  split <;> simp

/-- Parsing back the tags a saved item produced recovers those tags. -/
theorem tagsFromVideo_ofFile (p : String) (t : Tags) (hmp3 : extOf p = "mp3") :
    tagsFromVideo (LocalVideo.ofFile p t) = t := by
  rw [ofFile_mp3 _ _ hmp3]
  rfl

/-- Reconciling a file that already carries its merged item's fields leaves
the freshly parsed item untouched: the `update` with the remote descriptor
compares equal on every tracked field. -/
theorem passItem_clean (es : List RemoteEntry) (T aa : Option String) (p : String) (v : Video)
    (hmp3 : extOf p = "mp3")
    (hv : ∀ w, alistFind (remoteDictOf es T aa) (v.id.getD "") = some w →
      v.title = w.title ∧ v.channel = w.channel ∧ v.thumbnail = w.thumbnail
      ∧ v.index = w.index ∧ v.album_artist = w.album_artist) :
    passItem es T aa (p, tagsFromVideo v) = LocalVideo.ofFile p (tagsFromVideo v) := by
  unfold passItem
  have hk : localKeyOf (p, tagsFromVideo v) = v.id.getD "" := rfl
  rw [hk]
  cases hf : alistFind (remoteDictOf es T aa) (v.id.getD "") with
  | none => rfl
  | some w =>
    obtain ⟨h1, h2, h3, h4, h5⟩ := hv w hf
    apply Video.update_self
    · rw [ofFile_mp3 _ _ hmp3]
      exact h1.symm
    · rw [ofFile_mp3 _ _ hmp3]
      exact h2.symm
    · rw [ofFile_mp3 _ _ hmp3]
      exact h3.symm
    · rw [ofFile_mp3 _ _ hmp3]
      exact h4.symm
    · rw [ofFile_mp3 _ _ hmp3]
      exact h5.symm

/-- C1 (amended): reconciliation is idempotent on a collection whose files
are all materialized mp3s with distinct truthy ids, when the remote listing
is fully constructible with distinct ids, the local and remote id sets
coincide, and each file's stored artist already equals its remote entry's
channel (otherwise the remote items' collection-artist stamp can change
between passes).  Then the first pass succeeds, the second pass (same
remote data, against the first pass's resulting files) carries zero dirty
flags and performs zero write-back actions, and leaves every file
byte-identical. -/
theorem c1_amended_idempotence (outDir : String) (fs : FileSystem) (T : Option String)
    (es : List RemoteEntry)
    (hnd : (fs.map Prod.fst).Nodup)
    (hext : ∀ pt ∈ fs, extOf pt.1 = "mp3")
    (htr : ∀ pt ∈ fs, truthy pt.2.youtube_id = true)
    (hidnd : (fs.map localKeyOf).Nodup)
    (hgood : ∀ e ∈ es, goodEntry e)
    (hrnd : (es.map (fun e => e.id.getD "")).Nodup)
    (hlsub : ∀ pt ∈ fs, localKeyOf pt ∈ es.map (fun e => e.id.getD ""))
    (hrsub : ∀ e ∈ es, e.id.getD "" ∈ fs.map localKeyOf)
    (hch : ∀ pt ∈ fs, ∀ e ∈ es, e.id.getD "" = localKeyOf pt → e.channel = pt.2.artist) :
    ∃ r1 r2 : SyncResult,
      Playlist.sync outDir fs (FetchResult.parsed { title := T, entries := es })
        = Except.ok r1
      ∧ Playlist.sync outDir r1.fs (FetchResult.parsed { title := T, entries := es })
        = Except.ok r2
      ∧ (∀ kv ∈ r2.items, kv.2.doesWriteBack = false ∧ kv.2.u_title = false
          ∧ kv.2.u_channel = false ∧ kv.2.u_thumbnail = false ∧ kv.2.u_index = false
          ∧ kv.2.u_album_artist = false)
      ∧ r2.fs = r1.fs := by
  have hpass1 := pass_characterization outDir fs T es hnd hext htr hidnd hgood hrnd hlsub hrsub
  have hF1 : ∀ pt ∈ fs, (passItem es T (passAA fs es) pt).id = pt.2.youtube_id := by
    intro pt hpt
    have hmp3 := hext pt hpt
    unfold passItem
    cases hf : alistFind (remoteDictOf es T (passAA fs es)) (localKeyOf pt) with
    | some w =>
      rw [(Video.update_spec (LocalVideo.ofFile pt.1 pt.2) w).2.2.2.2.2.1,
        ofFile_mp3 _ _ hmp3]
    | none => rw [ofFile_mp3 _ _ hmp3]
  have hF2 : ∀ pt ∈ fs, (passItem es T (passAA fs es) pt).channel = pt.2.artist := by
    intro pt hpt
    have hmp3 := hext pt hpt
    unfold passItem
    cases hf : alistFind (remoteDictOf es T (passAA fs es)) (localKeyOf pt) with
    | some w =>
      rw [(Video.update_spec (LocalVideo.ofFile pt.1 pt.2) w).2.1]
      obtain ⟨e, he, j, hw, hk⟩ := remoteDict_find_entry es T (passAA fs es) (localKeyOf pt) w hf
      rw [hw]
      show e.channel = pt.2.artist
      exact hch pt hpt e he hk
    | none => rw [ofFile_mp3 _ _ hmp3]
  have hkey1 : ∀ pt ∈ fs,
      localKeyOf (pt.1, tagsFromVideo (passItem es T (passAA fs es) pt)) = localKeyOf pt := by
    intro pt hpt
    show (passItem es T (passAA fs es) pt).id.getD "" = localKeyOf pt
    rw [hF1 pt hpt]
    rfl
  have hmapfst : (fs.map (fun pt => (pt.1, tagsFromVideo (passItem es T (passAA fs es) pt)))).map
      Prod.fst = fs.map Prod.fst := by
    rw [List.map_map]
    apply List.map_congr_left
    intro pt _
    rfl
  have hmapkey : (fs.map (fun pt => (pt.1, tagsFromVideo (passItem es T (passAA fs es) pt)))).map
      localKeyOf = fs.map localKeyOf := by
    rw [List.map_map]
    apply List.map_congr_left
    intro pt hpt
    exact hkey1 pt hpt
  have haa1 : localAA (fs.map (fun pt =>
        (pt.1, tagsFromVideo (passItem es T (passAA fs es) pt)))) none
      = localAA fs none := by
    unfold localAA
    rw [List.foldl_map]
    apply List.foldl_ext
    intro a pt hpt
    show Playlist.add_album_artist a (passItem es T (passAA fs es) pt).channel
      = Playlist.add_album_artist a pt.2.artist
    rw [hF2 pt hpt]
  have haaR2 : passAA (fs.map (fun pt =>
        (pt.1, tagsFromVideo (passItem es T (passAA fs es) pt)))) es
      = passAA fs es := by
    show remoteAA es (localAA (fs.map (fun pt =>
        (pt.1, tagsFromVideo (passItem es T (passAA fs es) pt)))) none)
      = passAA fs es
    rw [haa1]
    rfl
  have hpass2 := pass_characterization outDir
    (fs.map (fun pt => (pt.1, tagsFromVideo (passItem es T (passAA fs es) pt)))) T es
    (by rw [hmapfst]; exact hnd)
    (by
      intro pt1 hpt1
      obtain ⟨pt, hpt, hq⟩ := List.mem_map.mp hpt1
      rw [← hq]
      exact hext pt hpt)
    (by
      intro pt1 hpt1
      obtain ⟨pt, hpt, hq⟩ := List.mem_map.mp hpt1
      rw [← hq]
      show truthy (tagsFromVideo (passItem es T (passAA fs es) pt)).youtube_id = true
      rw [show (tagsFromVideo (passItem es T (passAA fs es) pt)).youtube_id
          = (passItem es T (passAA fs es) pt).id from rfl]
      rw [hF1 pt hpt]
      exact htr pt hpt)
    (by rw [hmapkey]; exact hidnd)
    hgood hrnd
    (by
      intro pt1 hpt1
      obtain ⟨pt, hpt, hq⟩ := List.mem_map.mp hpt1
      rw [← hq, hkey1 pt hpt]
      exact hlsub pt hpt)
    (by
      rw [hmapkey]
      exact hrsub)
  rw [haaR2] at hpass2
  have hclean : ∀ pt ∈ fs,
      passItem es T (passAA fs es) (pt.1, tagsFromVideo (passItem es T (passAA fs es) pt))
        = LocalVideo.ofFile pt.1 (tagsFromVideo (passItem es T (passAA fs es) pt)) := by
    intro pt hpt
    apply passItem_clean es T (passAA fs es) pt.1 (passItem es T (passAA fs es) pt)
      (hext pt hpt)
    intro w hw
    have hkeq : (passItem es T (passAA fs es) pt).id.getD "" = localKeyOf pt := by
      rw [hF1 pt hpt]
      rfl
    rw [hkeq] at hw
    have hI : passItem es T (passAA fs es) pt = (LocalVideo.ofFile pt.1 pt.2).update w := by
      unfold passItem
      rw [hw]
    rw [hI]
    have hs := Video.update_spec (LocalVideo.ofFile pt.1 pt.2) w
    exact ⟨hs.1, hs.2.1, hs.2.2.1, hs.2.2.2.1, hs.2.2.2.2.1⟩
  refine ⟨_, _, hpass1, hpass2, ?_, ?_⟩
  · intro kv hkv
    simp only at hkv
    obtain ⟨pt1, hpt1, hq⟩ := List.mem_map.mp hkv
    obtain ⟨pt, hpt, hq2⟩ := List.mem_map.mp hpt1
    rw [← hq]
    show (passItem es T (passAA fs es) pt1).doesWriteBack = false
      ∧ (passItem es T (passAA fs es) pt1).u_title = false
      ∧ (passItem es T (passAA fs es) pt1).u_channel = false
      ∧ (passItem es T (passAA fs es) pt1).u_thumbnail = false
      ∧ (passItem es T (passAA fs es) pt1).u_index = false
      ∧ (passItem es T (passAA fs es) pt1).u_album_artist = false
    rw [← hq2, hclean pt hpt]
    exact ofFile_clean pt.1 (tagsFromVideo (passItem es T (passAA fs es) pt))
  · show (fs.map (fun pt => (pt.1, tagsFromVideo (passItem es T (passAA fs es) pt)))).map
        (fun pt1 => (pt1.1, tagsFromVideo (passItem es T (passAA fs es) pt1)))
      = fs.map (fun pt => (pt.1, tagsFromVideo (passItem es T (passAA fs es) pt)))
    rw [List.map_map]
    apply List.map_congr_left
    intro pt hpt
    simp only [Function.comp_apply]
    have hsnd : tagsFromVideo (passItem es T (passAA fs es)
          (pt.1, tagsFromVideo (passItem es T (passAA fs es) pt)))
        = tagsFromVideo (passItem es T (passAA fs es) pt) := by
      rw [hclean pt hpt, tagsFromVideo_ofFile _ _ (hext pt hpt)]
    rw [hsnd]

/-- Closed instance of the amended idempotence theorem: one mp3 file whose
stored id, title, channel and artist agree with the single remote entry. -/
theorem c1_amended_idempotence_witness :
    ∃ r1 r2 : SyncResult,
      Playlist.sync "d" [("d/a.mp3", c1wtags)]
          (FetchResult.parsed { title := some "P", entries := [c1wentry] })
        = Except.ok r1
      ∧ Playlist.sync "d" r1.fs
          (FetchResult.parsed { title := some "P", entries := [c1wentry] })
        = Except.ok r2
      ∧ (∀ kv ∈ r2.items, kv.2.doesWriteBack = false ∧ kv.2.u_title = false
          ∧ kv.2.u_channel = false ∧ kv.2.u_thumbnail = false ∧ kv.2.u_index = false
          ∧ kv.2.u_album_artist = false)
      ∧ r2.fs = r1.fs :=
  c1_amended_idempotence "d" [("d/a.mp3", c1wtags)] (some "P") [c1wentry]
    (by decide) (by decide) (by decide) (by decide)
    (by
      intro e he
      rw [List.mem_singleton] at he
      subst he
      exact ⟨rfl, rfl, rfl, by decide⟩)
    (by decide) (by decide) (by decide) (by decide)
